import Mathlib

/-!
Verification of the replication core of `replicants.js` (src/server.js and
src/client.js): the change codec (`applyChanges` / `reverseChanges`), the
path addressing it delegates to (`objectPath.get` / `set` / `del`), the
revision labelling, and the server-side and client-side `Replicant` state
machines with their message handlers.

Modelling conventions.
* Values are JSON-shaped documents.  JavaScript objects are unordered
  string-keyed maps under deep equality, so object field lists are kept in
  canonical key-sorted form: an absent key is inserted at its sorted
  position, a present key is overwritten in place.  Lean equality of
  canonical values then coincides with JavaScript deep equality.
* `clone` produces an unshared deep copy, so the functional model simply
  reuses values; the one place aliasing is observable (a splice writing
  through the array returned by `objectPath.get` at the root path) is made
  explicit in `spliceStep`.
* The sha1 content hash over `(sequence number, value)` is idealized as the
  injective pair itself; revision labels are opaque equality tokens.
* JavaScript `undefined` is the `Value.undef` constructor; a wire history is
  a list of label-or-undefined entries, and `jsIndex` reproduces JavaScript
  array indexing where out-of-range reads give `undefined`.
-/

/-- A JSON-shaped document value: the data model of a replicant. -/
inductive Value where
  | null
  | undef
  | bool (b : Bool)
  | num (n : Int)
  | str (s : String)
  | arr (elems : List Value)
  | obj (fields : List (String × Value))

mutual

/-- Structural equality of values (deep equality). -/
def Value.beq : Value → Value → Bool
  | .null, .null => true
  | .undef, .undef => true
  | .bool a, .bool b => a == b
  | .num a, .num b => a == b
  | .str a, .str b => a == b
  | .arr xs, .arr ys => beqElems xs ys
  | .obj fs, .obj gs => beqFields fs gs
  | _, _ => false
termination_by structural a => a

/-- Elementwise equality of sequences. -/
def beqElems : List Value → List Value → Bool
  | [], [] => true
  | x :: xs, y :: ys => x.beq y && beqElems xs ys
  | _, _ => false
termination_by structural a => a

/-- Entrywise equality of field lists. -/
def beqFields : List (String × Value) → List (String × Value) → Bool
  | [], [] => true
  | (k, v) :: fs, (k', v') :: gs => k == k' && v.beq v' && beqFields fs gs
  | _, _ => false
termination_by structural a => a

end

mutual

theorem Value.beq_iff : ∀ (a b : Value), (Value.beq a b = true) ↔ a = b
  | .null, b => by cases b <;> simp [Value.beq]
  | .undef, b => by cases b <;> simp [Value.beq]
  | .bool x, b => by cases b <;> simp [Value.beq]
  | .num x, b => by cases b <;> simp [Value.beq]
  | .str x, b => by cases b <;> simp [Value.beq]
  | .arr xs, b => by
      cases b <;> simp [Value.beq]
      exact beqElems_iff xs _
  | .obj fs, b => by
      cases b <;> simp [Value.beq]
      exact beqFields_iff fs _
termination_by structural a => a

theorem beqElems_iff : ∀ (xs ys : List Value), (beqElems xs ys = true) ↔ xs = ys
  | [], ys => by cases ys <;> simp [beqElems]
  | x :: xs, ys => by
      cases ys with
      | nil => simp [beqElems]
      | cons y ys =>
          simp [beqElems, Value.beq_iff x y, beqElems_iff xs ys]
termination_by structural a => a

theorem beqFields_iff : ∀ (fs gs : List (String × Value)), (beqFields fs gs = true) ↔ fs = gs
  | [], gs => by cases gs <;> simp [beqFields]
  | (k, v) :: fs, gs => by
      cases gs with
      | nil => simp [beqFields]
      | cons g gs =>
          obtain ⟨k', v'⟩ := g
          simp [beqFields, Value.beq_iff v v', beqFields_iff fs gs, and_assoc]
termination_by structural a => a

end

instance : DecidableEq Value := fun a b => decidable_of_iff _ (Value.beq_iff a b)

/-! ### Key ordering

String comparison used only to keep canonical field lists sorted; defined
over the character lists so that it computes by structural recursion. -/

/-- Lexicographic order on character lists via code points. -/
def keyLtB : List Char → List Char → Bool
  | [], [] => false
  | [], _ :: _ => true
  | _ :: _, [] => false
  | a :: as, b :: bs =>
      if a.toNat < b.toNat then true
      else if b.toNat < a.toNat then false
      else keyLtB as bs

/-- Strict order on field keys. -/
def keyLt (a b : String) : Bool := keyLtB a.data b.data

theorem keyLtB_irrefl : ∀ x, keyLtB x x = false := by
  intro x
  induction x with
  | nil => simp [keyLtB]
  | cons a as ih => simp [keyLtB, ih]

theorem keyLtB_asymm : ∀ x y, keyLtB x y = true → keyLtB y x = false := by
  intro x
  induction x with
  | nil => intro y h; cases y <;> simp_all [keyLtB]
  | cons a as ih =>
      intro y h
      cases y with
      | nil => simp_all [keyLtB]
      | cons b bs =>
          simp only [keyLtB] at h ⊢
          by_cases hab : a.toNat < b.toNat
          · have hba : ¬ b.toNat < a.toNat := by omega
            simp [hba, hab]
          · simp only [hab, if_false] at h
            by_cases hba : b.toNat < a.toNat
            · simp [hba] at h
            · simp only [hba, if_false] at h
              simp [hab, hba, ih bs h]

theorem keyLtB_trans : ∀ x y z, keyLtB x y = true → keyLtB y z = true → keyLtB x z = true := by
  intro x
  induction x with
  | nil =>
      intro y z hxy hyz
      cases y with
      | nil => simp_all [keyLtB]
      | cons b bs => cases z with
        | nil => simp_all [keyLtB]
        | cons c cs => simp [keyLtB]
  | cons a as ih =>
      intro y z hxy hyz
      cases y with
      | nil => simp_all [keyLtB]
      | cons b bs =>
          cases z with
          | nil => simp_all [keyLtB]
          | cons c cs =>
              simp only [keyLtB] at hxy hyz ⊢
              by_cases hab : a.toNat < b.toNat <;>
                by_cases hbc : b.toNat < c.toNat <;>
                  simp only [hab, hbc, if_true, if_false] at hxy hyz
              · have : a.toNat < c.toNat := by omega
                simp [this]
              · by_cases hcb : c.toNat < b.toNat
                · simp [hcb] at hyz
                · simp only [hcb, if_false] at hyz
                  have : a.toNat = b.toNat ∨ a.toNat < c.toNat := by omega
                  rcases this with h | h
                  · have hac : a.toNat < c.toNat := by omega
                    simp [hac]
                  · simp [h]
              · by_cases hba : b.toNat < a.toNat
                · simp [hba] at hxy
                · simp only [hba, if_false] at hxy
                  have hac : a.toNat < c.toNat := by omega
                  simp [hac]
              · by_cases hba : b.toNat < a.toNat
                · simp [hba] at hxy
                · simp only [hba, if_false] at hxy
                  by_cases hcb : c.toNat < b.toNat
                  · simp [hcb] at hyz
                  · simp only [hcb, if_false] at hyz
                    have hac : ¬ a.toNat < c.toNat := by omega
                    have hca : ¬ c.toNat < a.toNat := by omega
                    simp [hac, hca, ih bs cs hxy hyz]

theorem keyLtB_total_eq : ∀ x y, keyLtB x y = false → keyLtB y x = false → x = y := by
  intro x
  induction x with
  | nil => intro y h₁ _; cases y <;> simp_all [keyLtB]
  | cons a as ih =>
      intro y h₁ h₂
      cases y with
      | nil => simp_all [keyLtB]
      | cons b bs =>
          simp only [keyLtB] at h₁ h₂
          by_cases hab : a.toNat < b.toNat
          · simp [hab] at h₁
          · by_cases hba : b.toNat < a.toNat
            · simp [hba, hab] at h₂
            · simp only [hab, hba, if_false] at h₁ h₂
              have hval : a.toNat = b.toNat := by omega
              have hchar : a = b :=
                Char.eq_of_val_eq (UInt32.eq_of_toBitVec_eq (BitVec.eq_of_toNat_eq hval))
              rw [hchar, ih bs h₁ h₂]

theorem keyLt_asymm (a b : String) (h : keyLt a b = true) : keyLt b a = false :=
  keyLtB_asymm _ _ h

theorem keyLt_trans (a b c : String) (h₁ : keyLt a b = true) (h₂ : keyLt b c = true) :
    keyLt a c = true :=
  keyLtB_trans _ _ _ h₁ h₂

theorem keyLt_irrefl (a : String) : keyLt a a = false := keyLtB_irrefl _

theorem keyLt_total_eq (a b : String) (h₁ : keyLt a b = false) (h₂ : keyLt b a = false) :
    a = b := by
  have h : a.data = b.data := keyLtB_total_eq _ _ h₁ h₂
  cases a; cases b
  exact congrArg String.mk h

theorem keyLt_of_ne_of_not_lt (a b : String) (hne : a ≠ b) (h : keyLt a b = false) :
    keyLt b a = true := by
  by_cases hba : keyLt b a = true
  · exact hba
  · exact absurd (keyLt_total_eq a b h (by simpa using hba)) hne

/-! ### Object fields

JavaScript object property access, assignment, and deletion, on canonical
key-sorted field lists. -/

/-- Property read `obj[k]`. -/
def lookupField : List (String × Value) → String → Option Value
  | [], _ => none
  | (k', v) :: fs, k => if k' = k then some v else lookupField fs k

/-- Inserts a binding for an absent key at its sorted position. -/
def insertField : List (String × Value) → String → Value → List (String × Value)
  | [], k, w => [(k, w)]
  | (k', v') :: fs, k, w =>
      if keyLt k k' then (k, w) :: (k', v') :: fs
      else (k', v') :: insertField fs k w

/-- Overwrites the binding of a present key in place. -/
def replaceField : List (String × Value) → String → Value → List (String × Value)
  | [], _, _ => []
  | (k', v') :: fs, k, w =>
      if k' = k then (k, w) :: fs else (k', v') :: replaceField fs k w

/-- Property write `obj[k] = w`: overwrite a present key in place, insert an
absent key at its canonical sorted position. -/
def setField (fs : List (String × Value)) (k : String) (w : Value) : List (String × Value) :=
  if (lookupField fs k).isSome then replaceField fs k w else insertField fs k w

/-- Property removal `delete obj[k]`. -/
def eraseField : List (String × Value) → String → List (String × Value)
  | [], _ => []
  | (k', v') :: fs, k => if k' = k then fs else (k', v') :: eraseField fs k

/-! ### Path addressing (the `object-path` library used by the source) -/

/-- A dotted object path, already split on the dots. -/
abbrev ObjPath := List String

/-- Decimal digit test. -/
def isDigitCh (c : Char) : Bool := 48 ≤ c.toNat && c.toNat ≤ 57

/-- Numeric value of a digit string. -/
def digitsToNatAux (acc : Nat) : List Char → Nat
  | [] => acc
  | c :: cs => digitsToNatAux (acc * 10 + (c.toNat - 48)) cs

/-- The `getKey` test of `object-path`: a path segment addresses a sequence
index iff `parseInt` round-trips on it, i.e. iff it is a canonical decimal
numeral (nonempty, all digits, no leading zero except in `"0"` itself). -/
def parseIndex (s : String) : Option Nat :=
  match s.data with
  | [] => none
  | c :: cs =>
      if (c :: cs).all isDigitCh && (c ≠ '0' || cs.isEmpty) then
        some (digitsToNatAux 0 (c :: cs))
      else none

/-- In-range sequence writes replace the element; writes past the end create
holes, which read back as `undefined`. -/
def listSetPad (xs : List Value) (i : Nat) (w : Value) : List Value :=
  if i < xs.length then xs.set i w
  else xs ++ List.replicate (i - xs.length) .undef ++ [w]

/-- `objectPath.get`: walk the path; a missing position, a non-container
receiver, or a non-numeric segment over a sequence yields `undefined`
(modelled as `none`). The empty path returns the value itself. -/
def getPath : Value → ObjPath → Option Value
  | v, [] => some v
  | .obj fs, k :: p =>
      match lookupField fs k with
      | some child => getPath child p
      | none => none
  | .arr xs, k :: p =>
      match parseIndex k with
      | some i =>
          match xs.get? i with
          | some child => getPath child p
          | none => none
      | none => none
  | _, _ :: _ => none

/-- The container `object-path` creates for a missing intermediate position:
a sequence when the next segment is numeric, otherwise a mapping. -/
def freshFor (p : ObjPath) : Value :=
  match p with
  | k :: _ => if (parseIndex k).isSome then .arr [] else .obj []
  | [] => .obj []

/-- `objectPath.set`: walk the path, creating missing (or `undefined`)
intermediate containers; the final segment is written through `setField` or
a padded sequence write.  The empty path is a no-op (the library returns the
object unchanged), as is a write into a primitive, `null`, or `undefined`
receiver or a non-numeric segment over a sequence. -/
def setPath : Value → ObjPath → Value → Value
  | v, [], _ => v
  | .obj fs, [k], w => .obj (setField fs k w)
  | .obj fs, k :: k₂ :: p, w =>
      match lookupField fs k with
      | some child =>
          if child = .undef then
            .obj (setField fs k (setPath (freshFor (k₂ :: p)) (k₂ :: p) w))
          else
            .obj (setField fs k (setPath child (k₂ :: p) w))
      | none => .obj (setField fs k (setPath (freshFor (k₂ :: p)) (k₂ :: p) w))
  | .arr xs, [k], w =>
      match parseIndex k with
      | some i => .arr (listSetPad xs i w)
      | none => .arr xs
  | .arr xs, k :: k₂ :: p, w =>
      match parseIndex k with
      | some i =>
          match xs.get? i with
          | some child =>
              if child = .undef then
                .arr (listSetPad xs i (setPath (freshFor (k₂ :: p)) (k₂ :: p) w))
              else
                .arr (xs.set i (setPath child (k₂ :: p) w))
          | none => .arr (listSetPad xs i (setPath (freshFor (k₂ :: p)) (k₂ :: p) w))
      | none => .arr xs
  | v, _ :: _, _ => v

/-- `objectPath.del`: remove the terminal slot when it is defined (splicing
sequences, deleting mapping keys); recurse only through defined positions;
everything else is a no-op. -/
def delPath : Value → ObjPath → Value
  | v, [] => v
  | .obj fs, [k] =>
      match lookupField fs k with
      | some w => if w = .undef then .obj fs else .obj (eraseField fs k)
      | none => .obj fs
  | .obj fs, k :: k₂ :: p =>
      match lookupField fs k with
      | some child =>
          if child = .undef then .obj fs
          else .obj (setField fs k (delPath child (k₂ :: p)))
      | none => .obj fs
  | .arr xs, [k] =>
      match parseIndex k with
      | some i =>
          match xs.get? i with
          | some w => if w = .undef then .arr xs else .arr (xs.take i ++ xs.drop (i + 1))
          | none => .arr xs
      | none => .arr xs
  | .arr xs, k :: k₂ :: p =>
      match parseIndex k with
      | some i =>
          match xs.get? i with
          | some child =>
              if child = .undef then .arr xs
              else .arr (xs.set i (delPath child (k₂ :: p)))
          | none => .arr xs
      | none => .arr xs
  | v, _ :: _ => v

/-! ### The change codec (`applyChanges` / `reverseChanges` in the source) -/

/-- `arr.splice(idx, cnt, ...items)`: JavaScript clamps an index past the
end and an overlong removal count. -/
def spliceList (xs : List Value) (idx cnt : Nat) (items : List Value) : List Value :=
  xs.take idx ++ items ++ xs.drop (idx + cnt)

/-- JavaScript truthiness test `!x`, as used by the codec's splice branches. -/
def falsy : Value → Bool
  | .undef => true
  | .null => true
  | .bool b => !b
  | .num n => n == 0
  | .str s => s == ""
  | .arr _ => false
  | .obj _ => false

/-- `ToLength` as the generic array-like splice reads a `length` property:
a missing property, `undefined`, `null`, `false`, a mapping, and a
non-numeric string all coerce to `0` (through `NaN`); `true` coerces to `1`;
a nonnegative number is used as is and a negative one clamps to `0`; a
one-element sequence coerces through its element and any other sequence to
`0` (the `ToPrimitive` string round-trip).  Strings that JavaScript would
parse in a non-canonical numeric form, and numeric coercion through nested
one-element sequences, are outside the documents this model stores under a
`length` key. -/
def toLengthVal : Value → Nat
  | .num n => n.toNat
  | .bool b => if b then 1 else 0
  | .str s => (parseIndex s).getD 0
  | .arr [.num n] => n.toNat
  | .arr [.str s] => (parseIndex s).getD 0
  | _ => 0

/-- One move step of the generic splice: `if HasProperty(O, src) then
O[dst] = O[src] else delete O[dst]`, with integer keys read and written
through their decimal strings. -/
def copyOrDelete (fs : List (String × Value)) (src dst : Nat) : List (String × Value) :=
  match lookupField fs (Nat.repr src) with
  | some v => setField fs (Nat.repr dst) v
  | none => eraseField fs (Nat.repr dst)

/-- The ascending move loop of a shrinking generic splice: `count` steps
from position `k`, each moving `k + adc` down to `k + ic`. -/
def spliceCopyUp (fs : List (String × Value)) (k count adc ic : Nat) :
    List (String × Value) :=
  match count with
  | 0 => fs
  | c + 1 => spliceCopyUp (copyOrDelete fs (k + adc) (k + ic)) (k + 1) c adc ic

/-- The descending move loop of a growing generic splice: `count` steps
from position `k`, each moving `k + adc - 1` up to `k + ic - 1`. -/
def spliceCopyDown (fs : List (String × Value)) (k count adc ic : Nat) :
    List (String × Value) :=
  match count with
  | 0 => fs
  | c + 1 => spliceCopyDown (copyOrDelete fs (k + adc - 1) (k + ic - 1)) (k - 1) c adc ic

/-- Deletion of the `count` integer keys `start .. start + count - 1`. -/
def deleteIdxKeys (fs : List (String × Value)) (start count : Nat) :
    List (String × Value) :=
  match count with
  | 0 => fs
  | c + 1 => deleteIdxKeys (eraseField fs (Nat.repr start)) (start + 1) c

/-- The insertion loop of the generic splice: write the items at the
consecutive integer keys starting at `k`. -/
def insertItems (fs : List (String × Value)) (k : Nat) :
    List Value → List (String × Value)
  | [] => fs
  | item :: rest => insertItems (setField fs (Nat.repr k) item) (k + 1) rest

/-- `Array.prototype.splice.call(O, start, dc, ...items)` on a plain
mapping, per the generic array-like algorithm: read `len` from the `length`
property, clamp the start index and the deletion count, shift the integer
keys down (then delete the trailing ones) or up, write the inserted items,
and finally write the new `length`. -/
def genericSpliceFields (fs : List (String × Value)) (start dc : Nat)
    (items : List Value) : List (String × Value) :=
  let len := toLengthVal ((lookupField fs "length").getD .undef)
  let as := min start len
  let adc := min dc (len - as)
  let ic := items.length
  let fs₁ :=
    if ic < adc then
      deleteIdxKeys (spliceCopyUp fs as (len - adc - as) adc ic) (len - adc + ic) (adc - ic)
    else if adc < ic then
      spliceCopyDown fs (len - adc) (len - adc - as) adc ic
    else fs
  setField (insertItems fs₁ as items) "length" (.num (len - adc + ic))

/-- One splice branch of the codec: read the position (`undefined` when
missing), substitute a fresh empty sequence when it is falsy, splice, and
write the result back.  The write-back is a no-op at the root path, where
the in-place mutation of the aliased receiver — made explicit here — is
what updates the value; a fresh sequence created for a falsy root is
therefore lost.  A truthy non-array mapping is mutated in place by the
builtin splice through the generic array-like protocol (integer keys and a
`length` key are written onto it); a truthy primitive is returned
unchanged, since the builtin's mutation lands on a discarded wrapper, and
the write-back restores the original value. -/
def spliceStep (v : Value) (p : ObjPath) (idx cnt : Nat) (items : List Value) : Value :=
  let got := (getPath v p).getD .undef
  if falsy got then
    setPath v p (.arr (spliceList [] idx cnt items))
  else
    match got with
    | .arr xs =>
        let spliced := Value.arr (spliceList xs idx cnt items)
        if p = [] then spliced else setPath v p spliced
    | .obj fs =>
        let spliced := Value.obj (genericSpliceFields fs idx cnt items)
        if p = [] then spliced else setPath v p spliced
    | w => setPath v p w

/-- A structured change record, as produced by the observer formatting in
`Replicant.onChange`; `other` stands for the catch-all branch that forwards
an unrecognized raw change type, which both codec directions ignore. -/
inductive Change where
  | add (path : ObjPath) (newValue : Value)
  | update (path : ObjPath) (oldValue newValue : Value)
  | splice (path : ObjPath) (index : Nat) (removed : List Value) (removedCount : Nat)
      (added : List Value) (addedCount : Nat)
  | delete (path : ObjPath) (oldValue : Value)
  | other (type : String) (path : ObjPath)
deriving DecidableEq

/-- One forward step of `applyChanges`. -/
def applyChange (v : Value) (c : Change) : Value :=
  match c with
  | .add p nv => setPath v p nv
  | .update p _ nv => setPath v p nv
  | .splice p idx _ rc added _ => spliceStep v p idx rc added
  | .delete p _ => delPath v p
  | .other _ _ => v

/-- One backward step of `reverseChanges`. -/
def reverseChange (v : Value) (c : Change) : Value :=
  match c with
  | .add p _ => delPath v p
  | .update p ov _ => setPath v p ov
  | .splice p idx removed _ _ ac => spliceStep v p idx ac removed
  | .delete p ov => setPath v p ov
  | .other _ _ => v

/-- `applyChanges(startValue, changes)`: deep-copy, then apply each change in
order (the copy is implicit in the functional model). -/
def applyChanges (startValue : Value) (changes : List Change) : Value :=
  changes.foldl applyChange startValue

/-- `reverseChanges(startValue, changes)`: deep-copy, then undo each change
in reverse order. -/
def reverseChanges (startValue : Value) (changes : List Change) : Value :=
  changes.reverse.foldl reverseChange startValue

/-! ### Canonical form

Values whose object field lists are strictly key-sorted throughout and that
contain no `undefined`: the canonical representatives of JavaScript deep
equality for spec-level documents. -/

/-- Head key of a field list precedes the key after it. -/
def headKeyOk (k : String) : List (String × Value) → Bool
  | [] => true
  | (k', _) :: _ => keyLt k k'

mutual

/-- Canonical-form test. -/
def Value.canon : Value → Bool
  | .null => true
  | .undef => false
  | .bool _ => true
  | .num _ => true
  | .str _ => true
  | .arr xs => canonElems xs
  | .obj fs => canonFields fs
termination_by structural a => a

/-- All elements canonical. -/
def canonElems : List Value → Bool
  | [] => true
  | x :: xs => x.canon && canonElems xs
termination_by structural a => a

/-- Keys strictly ascending and all values canonical. -/
def canonFields : List (String × Value) → Bool
  | [] => true
  | (k, v) :: fs => headKeyOk k fs && v.canon && canonFields fs
termination_by structural a => a

end

theorem canon_ne_undef {v : Value} (h : v.canon = true) : v ≠ .undef := by
  intro hv; subst hv; simp [Value.canon] at h

theorem canonFields_cons_iff {k : String} {v : Value} {fs : List (String × Value)} :
    canonFields ((k, v) :: fs) = true ↔
      headKeyOk k fs = true ∧ v.canon = true ∧ canonFields fs = true := by
  simp [canonFields, Bool.and_eq_true, and_assoc]

theorem canonFields_tail' {f : String × Value} {fs : List (String × Value)}
    (h : canonFields (f :: fs) = true) : canonFields fs = true := by
  obtain ⟨k, v⟩ := f
  exact (canonFields_cons_iff.mp h).2.2

theorem canonElems_mem : ∀ {xs : List Value}, canonElems xs = true ↔ ∀ x ∈ xs, x.canon = true := by
  intro xs
  induction xs with
  | nil => simp [canonElems]
  | cons x xs ih => simp [canonElems, ih]

theorem lookupField_mem : ∀ {fs : List (String × Value)} {k v},
    lookupField fs k = some v → (k, v) ∈ fs := by
  intro fs
  induction fs with
  | nil => intro k v h; simp [lookupField] at h
  | cons f fs ih =>
      intro k v h
      obtain ⟨k', v'⟩ := f
      by_cases hk : k' = k
      · subst hk
        simp [lookupField] at h
        simp [h]
      · simp [lookupField, hk] at h
        exact List.mem_cons_of_mem _ (ih h)

theorem canonFields_head_lt : ∀ {fs : List (String × Value)} {k v k' v'},
    canonFields ((k, v) :: fs) = true → (k', v') ∈ fs → keyLt k k' = true := by
  intro fs
  induction fs with
  | nil => intro k v k' v' _ hm; simp at hm
  | cons f fs ih =>
      intro k v k' v' hc hm
      obtain ⟨k₁, v₁⟩ := f
      obtain ⟨hhead, _, hc₁⟩ := canonFields_cons_iff.mp hc
      have hlt : keyLt k k₁ = true := by simpa [headKeyOk] using hhead
      rcases List.mem_cons.mp hm with h | h
      · injection h with h₁ h₂
        subst h₁
        exact hlt
      · exact keyLt_trans _ _ _ hlt (ih hc₁ h)

theorem canonFields_lookup_canon : ∀ {fs : List (String × Value)} {k v},
    canonFields fs = true → lookupField fs k = some v → v.canon = true := by
  intro fs
  induction fs with
  | nil => intro k v _ h; simp [lookupField] at h
  | cons f fs ih =>
      intro k v hc h
      obtain ⟨k', v'⟩ := f
      obtain ⟨_, hv, hc'⟩ := canonFields_cons_iff.mp hc
      by_cases hk : k' = k
      · subst hk; simp [lookupField] at h; exact h ▸ hv
      · simp [lookupField, hk] at h
        exact ih hc' h

theorem lookupField_none_of_forall_ne : ∀ {fs : List (String × Value)} {k},
    (∀ x ∈ fs, x.1 ≠ k) → lookupField fs k = none := by
  intro fs
  induction fs with
  | nil => intro k _; simp [lookupField]
  | cons f fs ih =>
      intro k h
      obtain ⟨k', v'⟩ := f
      have hk : k' ≠ k := h (k', v') (List.mem_cons_self _ _)
      simp only [lookupField, hk, if_false]
      exact ih fun x hx => h x (List.mem_cons_of_mem _ hx)

theorem lookupField_eraseField_none : ∀ {fs : List (String × Value)} {k},
    canonFields fs = true → lookupField (eraseField fs k) k = none := by
  intro fs
  induction fs with
  | nil => intro k _; simp [eraseField, lookupField]
  | cons f fs ih =>
      intro k hc
      obtain ⟨k', v'⟩ := f
      by_cases hk : k' = k
      · subst hk
        simp only [eraseField, if_pos rfl]
        apply lookupField_none_of_forall_ne
        intro x hx hxk
        have hlt : keyLt k' x.1 = true := canonFields_head_lt hc (by simpa using hx)
        rw [hxk] at hlt
        simp [keyLt_irrefl] at hlt
      · simp only [eraseField, hk, if_false, lookupField, hk]
        exact ih (canonFields_tail' hc)

theorem lookupField_replaceField_self : ∀ {fs : List (String × Value)} {k v w},
    lookupField fs k = some v → lookupField (replaceField fs k w) k = some w := by
  intro fs
  induction fs with
  | nil => intro k v w h; simp [lookupField] at h
  | cons f fs ih =>
      intro k v w h
      obtain ⟨k', v'⟩ := f
      by_cases hk : k' = k
      · subst hk; simp [replaceField, lookupField]
      · simp only [lookupField, hk, if_false] at h
        simp only [replaceField, hk, if_false, lookupField, hk]
        exact ih h

theorem replaceField_replaceField : ∀ {fs : List (String × Value)} {k : String} {a b : Value},
    replaceField (replaceField fs k a) k b = replaceField fs k b := by
  intro fs
  induction fs with
  | nil => intro k a b; simp [replaceField]
  | cons f fs ih =>
      intro k a b
      obtain ⟨k', v'⟩ := f
      by_cases hk : k' = k
      · subst hk; simp [replaceField]
      · simp [replaceField, hk, ih]

theorem replaceField_self : ∀ {fs : List (String × Value)} {k v},
    lookupField fs k = some v → replaceField fs k v = fs := by
  intro fs
  induction fs with
  | nil => intro k v h; simp [lookupField] at h
  | cons f fs ih =>
      intro k v h
      obtain ⟨k', v'⟩ := f
      by_cases hk : k' = k
      · subst hk
        simp [lookupField] at h
        simp [replaceField, h]
      · simp only [lookupField, hk, if_false] at h
        simp [replaceField, hk, ih h]

theorem lookupField_insertField_self : ∀ {fs : List (String × Value)} {k w},
    lookupField fs k = none → lookupField (insertField fs k w) k = some w := by
  intro fs
  induction fs with
  | nil => intro k w _; simp [insertField, lookupField]
  | cons f fs ih =>
      intro k w h
      obtain ⟨k', v'⟩ := f
      by_cases hk : k' = k
      · simp [lookupField, hk] at h
      · simp only [lookupField, hk, if_false] at h
        by_cases hlt : keyLt k k' = true
        · simp [insertField, hlt, lookupField]
        · simp only [insertField, hlt, Bool.false_eq_true, if_false, lookupField, hk]
          exact ih h

theorem eraseField_insertField : ∀ {fs : List (String × Value)} {k w},
    lookupField fs k = none → eraseField (insertField fs k w) k = fs := by
  intro fs
  induction fs with
  | nil => intro k w _; simp [insertField, eraseField]
  | cons f fs ih =>
      intro k w h
      obtain ⟨k', v'⟩ := f
      by_cases hk : k' = k
      · simp [lookupField, hk] at h
      · simp only [lookupField, hk, if_false] at h
        by_cases hlt : keyLt k k' = true
        · simp [insertField, hlt, eraseField, hk]
        · simp only [insertField, hlt, Bool.false_eq_true, if_false, eraseField, hk, if_false]
          rw [ih h]

theorem insertField_eraseField : ∀ {fs : List (String × Value)} {k v},
    canonFields fs = true → lookupField fs k = some v →
    insertField (eraseField fs k) k v = fs := by
  intro fs
  induction fs with
  | nil => intro k v _ h; simp [lookupField] at h
  | cons f fs ih =>
      intro k v hc h
      obtain ⟨k', v'⟩ := f
      by_cases hk : k' = k
      · subst hk
        simp [lookupField] at h
        subst h
        simp only [eraseField, if_pos rfl]
        cases fs with
        | nil => simp [insertField]
        | cons g gs =>
            obtain ⟨k₂, v₂⟩ := g
            have hlt : keyLt k' k₂ = true :=
              canonFields_head_lt hc (List.mem_cons_self _ _)
            simp [insertField, hlt]
      · simp only [lookupField, hk, if_false] at h
        have hmem : (k, v) ∈ fs := lookupField_mem h
        have hlt : keyLt k' k = true := canonFields_head_lt hc hmem
        have hnlt : keyLt k k' = false := keyLt_asymm _ _ hlt
        simp only [eraseField, hk, if_false, insertField, hnlt, Bool.false_eq_true, if_false]
        rw [ih (canonFields_tail' hc) h]

theorem setField_of_some {fs : List (String × Value)} {k : String} {v w : Value}
    (h : lookupField fs k = some v) : setField fs k w = replaceField fs k w := by
  simp [setField, h]

theorem setField_of_none {fs : List (String × Value)} {k : String} {w : Value}
    (h : lookupField fs k = none) : setField fs k w = insertField fs k w := by
  simp [setField, h]

theorem lookupField_setField_self {fs : List (String × Value)} {k : String} {w : Value} :
    lookupField (setField fs k w) k = some w := by
  cases h : lookupField fs k with
  | some v => rw [setField_of_some h]; exact lookupField_replaceField_self h
  | none => rw [setField_of_none h]; exact lookupField_insertField_self h

/-! ### Path lemmas -/

theorem list_set_self {α : Type} : ∀ (xs : List α) (i : Nat) (v : α),
    xs.get? i = some v → xs.set i v = xs
  | [], _, _ => by intro h; simp [List.get?] at h
  | x :: xs, 0, v => by
      intro h
      injection h with h
      show v :: xs = x :: xs
      rw [h]
  | x :: xs, i + 1, v => by
      intro h
      show x :: xs.set i v = x :: xs
      rw [list_set_self xs i v h]

theorem listSetPad_get {xs : List Value} {i : Nat} {w : Value} :
    (listSetPad xs i w).get? i = some w := by
  by_cases h : i < xs.length
  · simp [listSetPad, h, List.get?_set_eq_of_lt w h]
  · simp only [listSetPad, h, if_false]
    have hlen : (xs ++ List.replicate (i - xs.length) Value.undef).length = i := by
      simp only [List.length_append, List.length_replicate]
      omega
    rw [List.get?_append_right (le_of_eq hlen)]
    simp [hlen]

theorem setPath_obj_shape (fs : List (String × Value)) (p : ObjPath) (w : Value) :
    ∃ gs, setPath (.obj fs) p w = .obj gs := by
  match p with
  | [] => exact ⟨fs, rfl⟩
  | [k] => exact ⟨setField fs k w, rfl⟩
  | k :: k₂ :: p =>
      cases h : lookupField fs k with
      | some child =>
          simp only [setPath, h]
          exact ⟨_, (apply_ite Value.obj _ _ _).symm⟩
      | none =>
          simp only [setPath, h]
          exact ⟨_, rfl⟩

theorem setPath_arr_shape (xs : List Value) (p : ObjPath) (w : Value) :
    ∃ ys, setPath (.arr xs) p w = .arr ys := by
  match p with
  | [] => exact ⟨xs, rfl⟩
  | [k] =>
      cases h : parseIndex k with
      | some i => simp only [setPath, h]; exact ⟨_, rfl⟩
      | none => simp only [setPath, h]; exact ⟨_, rfl⟩
  | k :: k₂ :: p =>
      cases h : parseIndex k with
      | some i =>
          simp only [setPath, h]
          cases hg : xs.get? i with
          | some child => exact ⟨_, (apply_ite Value.arr _ _ _).symm⟩
          | none => exact ⟨_, rfl⟩
      | none => simp only [setPath, h]; exact ⟨_, rfl⟩

theorem delPath_obj_shape (fs : List (String × Value)) (p : ObjPath) :
    ∃ gs, delPath (.obj fs) p = .obj gs := by
  match p with
  | [] => exact ⟨fs, rfl⟩
  | [k] =>
      cases h : lookupField fs k with
      | some child =>
          simp only [delPath, h]
          exact ⟨_, (apply_ite Value.obj _ _ _).symm⟩
      | none => simp only [delPath, h]; exact ⟨_, rfl⟩
  | k :: k₂ :: p =>
      cases h : lookupField fs k with
      | some child =>
          simp only [delPath, h]
          exact ⟨_, (apply_ite Value.obj _ _ _).symm⟩
      | none => simp only [delPath, h]; exact ⟨_, rfl⟩

theorem delPath_arr_shape (xs : List Value) (p : ObjPath) :
    ∃ ys, delPath (.arr xs) p = .arr ys := by
  match p with
  | [] => exact ⟨xs, rfl⟩
  | [k] =>
      cases h : parseIndex k with
      | some i =>
          simp only [delPath, h]
          cases hg : xs.get? i with
          | some w => exact ⟨_, (apply_ite Value.arr _ _ _).symm⟩
          | none => exact ⟨_, rfl⟩
      | none => simp only [delPath, h]; exact ⟨_, rfl⟩
  | k :: k₂ :: p =>
      cases h : parseIndex k with
      | some i =>
          simp only [delPath, h]
          cases hg : xs.get? i with
          | some child => exact ⟨_, (apply_ite Value.arr _ _ _).symm⟩
          | none => exact ⟨_, rfl⟩
      | none => simp only [delPath, h]; exact ⟨_, rfl⟩

theorem getPath_shape {v : Value} {k : String} {p : ObjPath} {w : Value}
    (h : getPath v (k :: p) = some w) :
    (∃ fs, v = .obj fs) ∨ (∃ xs, v = .arr xs) := by
  cases v with
  | obj fs => exact Or.inl ⟨fs, rfl⟩
  | arr xs => exact Or.inr ⟨xs, rfl⟩
  | null => simp [getPath] at h
  | undef => simp [getPath] at h
  | bool b => simp [getPath] at h
  | num n => simp [getPath] at h
  | str s => simp [getPath] at h

theorem setPath_shape_ne_undef {v : Value}
    (hv : (∃ fs, v = .obj fs) ∨ (∃ xs, v = .arr xs)) (p : ObjPath) (w : Value) :
    setPath v p w ≠ .undef := by
  rcases hv with ⟨fs, rfl⟩ | ⟨xs, rfl⟩
  · obtain ⟨gs, hg⟩ := setPath_obj_shape fs p w
    simp [hg]
  · obtain ⟨ys, hy⟩ := setPath_arr_shape xs p w
    simp [hy]

theorem delPath_shape_ne_undef {v : Value}
    (hv : (∃ fs, v = .obj fs) ∨ (∃ xs, v = .arr xs)) (p : ObjPath) :
    delPath v p ≠ .undef := by
  rcases hv with ⟨fs, rfl⟩ | ⟨xs, rfl⟩
  · obtain ⟨gs, hg⟩ := delPath_obj_shape fs p
    simp [hg]
  · obtain ⟨ys, hy⟩ := delPath_arr_shape xs p
    simp [hy]

theorem setPath_setPath_cancel : ∀ (p : ObjPath) (v ov nv : Value),
    getPath v p = some ov → setPath (setPath v p nv) p ov = v
  | [], v, ov, nv => by
      intro _
      simp only [setPath]
  | [k], v, ov, nv => by
      intro h
      cases v with
      | obj fs =>
          cases hl : lookupField fs k with
          | none => simp [getPath, hl] at h
          | some child =>
              simp only [getPath, hl, Option.some.injEq] at h
              subst h
              rw [show setPath (Value.obj fs) [k] nv = Value.obj (replaceField fs k nv) from by
                    simp only [setPath, setField_of_some hl]]
              simp only [setPath]
              rw [setField_of_some (lookupField_replaceField_self hl),
                  replaceField_replaceField, replaceField_self hl]
      | arr xs =>
          cases hpi : parseIndex k with
          | none => simp [getPath, hpi] at h
          | some i =>
              cases hg : xs.get? i with
              | none =>
                  simp only [getPath, hpi, hg] at h
                  exact Option.noConfusion h
              | some child =>
                  simp only [getPath, hpi, hg, Option.some.injEq] at h
                  subst h
                  have hilen : i < xs.length := (List.get?_eq_some.mp hg).1
                  rw [show setPath (Value.arr xs) [k] nv = Value.arr (xs.set i nv) from by
                        simp only [setPath, hpi, listSetPad, if_pos hilen]]
                  have hilen' : i < (xs.set i nv).length := by
                    simpa using hilen
                  simp only [setPath, hpi, listSetPad, if_pos hilen']
                  rw [List.set_set, list_set_self xs i child hg]
      | null => simp [getPath] at h
      | undef => simp [getPath] at h
      | bool b => simp [getPath] at h
      | num n => simp [getPath] at h
      | str s => simp [getPath] at h
  | k :: k₂ :: p, v, ov, nv => by
      intro h
      cases v with
      | obj fs =>
          cases hl : lookupField fs k with
          | none => simp [getPath, hl] at h
          | some child =>
              simp only [getPath, hl] at h
              have hshape := getPath_shape h
              have hcu : child ≠ Value.undef := by
                rcases hshape with ⟨gs, rfl⟩ | ⟨ys, rfl⟩ <;> simp
              rw [show setPath (Value.obj fs) (k :: k₂ :: p) nv
                    = Value.obj (replaceField fs k (setPath child (k₂ :: p) nv)) from by
                    simp only [setPath, hl, if_neg hcu, setField_of_some hl]]
              have hx : lookupField (replaceField fs k (setPath child (k₂ :: p) nv)) k
                  = some (setPath child (k₂ :: p) nv) := lookupField_replaceField_self hl
              have hxu : setPath child (k₂ :: p) nv ≠ Value.undef :=
                setPath_shape_ne_undef hshape _ _
              simp only [setPath, hx, if_neg hxu]
              rw [setPath_setPath_cancel (k₂ :: p) child ov nv h]
              rw [setField_of_some hx, replaceField_replaceField, replaceField_self hl]
      | arr xs =>
          cases hpi : parseIndex k with
          | none => simp [getPath, hpi] at h
          | some i =>
              cases hg : xs.get? i with
              | none =>
                  simp only [getPath, hpi, hg] at h
                  exact Option.noConfusion h
              | some child =>
                  simp only [getPath, hpi, hg] at h
                  have hshape := getPath_shape h
                  have hcu : child ≠ Value.undef := by
                    rcases hshape with ⟨gs, rfl⟩ | ⟨ys, rfl⟩ <;> simp
                  have hilen : i < xs.length := (List.get?_eq_some.mp hg).1
                  rw [show setPath (Value.arr xs) (k :: k₂ :: p) nv
                        = Value.arr (xs.set i (setPath child (k₂ :: p) nv)) from by
                        simp only [setPath, hpi, hg, if_neg hcu]]
                  have hx : (xs.set i (setPath child (k₂ :: p) nv)).get? i
                      = some (setPath child (k₂ :: p) nv) :=
                    List.get?_set_eq_of_lt _ hilen
                  have hxu : setPath child (k₂ :: p) nv ≠ Value.undef :=
                    setPath_shape_ne_undef hshape _ _
                  simp only [setPath, hpi, hx, if_neg hxu]
                  rw [setPath_setPath_cancel (k₂ :: p) child ov nv h]
                  rw [List.set_set, list_set_self xs i child hg]
      | null => simp [getPath] at h
      | undef => simp [getPath] at h
      | bool b => simp [getPath] at h
      | num n => simp [getPath] at h
      | str s => simp [getPath] at h

/-- Paths at which an observer `add` change can arise: the walk reaches an
existing mapping through defined positions and the final key is absent. -/
inductive AddOK : Value → ObjPath → Prop where
  | last {fs : List (String × Value)} {k : String} :
      lookupField fs k = none → AddOK (.obj fs) [k]
  | consObj {fs : List (String × Value)} {k k₂ : String} {p : ObjPath} {child : Value} :
      lookupField fs k = some child → child ≠ .undef →
      AddOK child (k₂ :: p) → AddOK (.obj fs) (k :: k₂ :: p)
  | consArr {xs : List Value} {k : String} {i : Nat} {k₂ : String} {p : ObjPath}
      {child : Value} :
      parseIndex k = some i → xs.get? i = some child → child ≠ .undef →
      AddOK child (k₂ :: p) → AddOK (.arr xs) (k :: k₂ :: p)

theorem AddOK_shape {v : Value} {p : ObjPath} (h : AddOK v p) :
    (∃ fs, v = .obj fs) ∨ (∃ xs, v = .arr xs) := by
  cases h with
  | last _ => exact Or.inl ⟨_, rfl⟩
  | consObj _ _ _ => exact Or.inl ⟨_, rfl⟩
  | consArr _ _ _ _ => exact Or.inr ⟨_, rfl⟩

theorem delPath_setPath_cancel {nv : Value} (hnv : nv ≠ .undef) :
    ∀ {v : Value} {p : ObjPath}, AddOK v p → delPath (setPath v p nv) p = v := by
  intro v p h
  induction h with
  | @last fs k hl =>
      rw [show setPath (Value.obj fs) [k] nv = Value.obj (insertField fs k nv) from by
            simp only [setPath, setField_of_none hl]]
      have hlk : lookupField (insertField fs k nv) k = some nv :=
        lookupField_insertField_self hl
      simp only [delPath, hlk, if_neg hnv]
      rw [eraseField_insertField hl]
  | @consObj fs k k₂ p child hl hcu hrec ih =>
      rw [show setPath (Value.obj fs) (k :: k₂ :: p) nv
            = Value.obj (replaceField fs k (setPath child (k₂ :: p) nv)) from by
            simp only [setPath, hl, if_neg hcu, setField_of_some hl]]
      have hx : lookupField (replaceField fs k (setPath child (k₂ :: p) nv)) k
          = some (setPath child (k₂ :: p) nv) := lookupField_replaceField_self hl
      have hxu : setPath child (k₂ :: p) nv ≠ Value.undef :=
        setPath_shape_ne_undef (AddOK_shape hrec) _ _
      simp only [delPath, hx, if_neg hxu]
      rw [ih, setField_of_some hx, replaceField_replaceField, replaceField_self hl]
  | @consArr xs k i k₂ p child hpi hg hcu hrec ih =>
      have hilen : i < xs.length := (List.get?_eq_some.mp hg).1
      rw [show setPath (Value.arr xs) (k :: k₂ :: p) nv
            = Value.arr (xs.set i (setPath child (k₂ :: p) nv)) from by
            simp only [setPath, hpi, hg, if_neg hcu]]
      have hx : (xs.set i (setPath child (k₂ :: p) nv)).get? i
          = some (setPath child (k₂ :: p) nv) := List.get?_set_eq_of_lt _ hilen
      have hxu : setPath child (k₂ :: p) nv ≠ Value.undef :=
        setPath_shape_ne_undef (AddOK_shape hrec) _ _
      simp only [delPath, hpi, hx, if_neg hxu]
      rw [ih, List.set_set, list_set_self xs i child hg]

/-- Paths at which an observer `delete` change can arise: the walk reaches a
mapping key bound to the defined value `ov` through defined positions. -/
inductive DelOK : Value → ObjPath → Value → Prop where
  | last {fs : List (String × Value)} {k : String} {ov : Value} :
      lookupField fs k = some ov → ov ≠ .undef → DelOK (.obj fs) [k] ov
  | consObj {fs : List (String × Value)} {k k₂ : String} {p : ObjPath} {child ov : Value} :
      lookupField fs k = some child → child ≠ .undef →
      DelOK child (k₂ :: p) ov → DelOK (.obj fs) (k :: k₂ :: p) ov
  | consArr {xs : List Value} {k : String} {i : Nat} {k₂ : String} {p : ObjPath}
      {child ov : Value} :
      parseIndex k = some i → xs.get? i = some child → child ≠ .undef →
      DelOK child (k₂ :: p) ov → DelOK (.arr xs) (k :: k₂ :: p) ov

theorem DelOK_shape {v : Value} {p : ObjPath} {ov : Value} (h : DelOK v p ov) :
    (∃ fs, v = .obj fs) ∨ (∃ xs, v = .arr xs) := by
  cases h with
  | last _ _ => exact Or.inl ⟨_, rfl⟩
  | consObj _ _ _ => exact Or.inl ⟨_, rfl⟩
  | consArr _ _ _ _ => exact Or.inr ⟨_, rfl⟩

theorem setPath_delPath_cancel {v : Value} {p : ObjPath} {ov : Value}
    (h : DelOK v p ov) : v.canon = true → setPath (delPath v p) p ov = v := by
  induction h with
  | @last fs k ov hl hu =>
      intro hc
      have hcf : canonFields fs = true := by simpa [Value.canon] using hc
      rw [show delPath (Value.obj fs) [k] = Value.obj (eraseField fs k) from by
            simp only [delPath, hl, if_neg hu]]
      have hnone : lookupField (eraseField fs k) k = none := lookupField_eraseField_none hcf
      simp only [setPath, setField_of_none hnone]
      rw [insertField_eraseField hcf hl]
  | @consObj fs k k₂ p child ov hl hcu hrec ih =>
      intro hc
      have hcf : canonFields fs = true := by simpa [Value.canon] using hc
      have hchild : child.canon = true := canonFields_lookup_canon hcf hl
      rw [show delPath (Value.obj fs) (k :: k₂ :: p)
            = Value.obj (replaceField fs k (delPath child (k₂ :: p))) from by
            simp only [delPath, hl, if_neg hcu, setField_of_some hl]]
      have hx : lookupField (replaceField fs k (delPath child (k₂ :: p))) k
          = some (delPath child (k₂ :: p)) := lookupField_replaceField_self hl
      have hxu : delPath child (k₂ :: p) ≠ Value.undef :=
        delPath_shape_ne_undef (DelOK_shape hrec) _
      simp only [setPath, hx, if_neg hxu]
      rw [ih hchild, setField_of_some hx, replaceField_replaceField, replaceField_self hl]
  | @consArr xs k i k₂ p child ov hpi hg hcu hrec ih =>
      intro hc
      have hce : canonElems xs = true := by simpa [Value.canon] using hc
      have hchild : child.canon = true := canonElems_mem.mp hce child (List.get?_mem hg)
      have hilen : i < xs.length := (List.get?_eq_some.mp hg).1
      rw [show delPath (Value.arr xs) (k :: k₂ :: p)
            = Value.arr (xs.set i (delPath child (k₂ :: p))) from by
            simp only [delPath, hpi, hg, if_neg hcu]]
      have hx : (xs.set i (delPath child (k₂ :: p))).get? i
          = some (delPath child (k₂ :: p)) := List.get?_set_eq_of_lt _ hilen
      have hxu : delPath child (k₂ :: p) ≠ Value.undef :=
        delPath_shape_ne_undef (DelOK_shape hrec) _
      simp only [setPath, hpi, hx, if_neg hxu]
      rw [ih hchild, List.set_set, list_set_self xs i child hg]

/-- Nonempty paths along which `objectPath.set` reaches its final segment:
the walk passes only through mappings, in-range-or-extendable sequence
positions, or missing positions that the library fills with fresh
containers.  A write at such a path is subsequently readable. -/
inductive Creatable : Value → ObjPath → Prop where
  | objLast {fs : List (String × Value)} {k : String} : Creatable (.obj fs) [k]
  | arrLast {xs : List Value} {k : String} {i : Nat} :
      parseIndex k = some i → Creatable (.arr xs) [k]
  | objConsP {fs : List (String × Value)} {k k₂ : String} {p : ObjPath} {child : Value} :
      lookupField fs k = some child → child ≠ .undef →
      Creatable child (k₂ :: p) → Creatable (.obj fs) (k :: k₂ :: p)
  | objConsA {fs : List (String × Value)} {k k₂ : String} {p : ObjPath} :
      (lookupField fs k = none ∨ lookupField fs k = some .undef) →
      Creatable (freshFor (k₂ :: p)) (k₂ :: p) → Creatable (.obj fs) (k :: k₂ :: p)
  | arrConsP {xs : List Value} {k : String} {i : Nat} {k₂ : String} {p : ObjPath}
      {child : Value} :
      parseIndex k = some i → xs.get? i = some child → child ≠ .undef →
      Creatable child (k₂ :: p) → Creatable (.arr xs) (k :: k₂ :: p)
  | arrConsA {xs : List Value} {k : String} {i : Nat} {k₂ : String} {p : ObjPath} :
      parseIndex k = some i → (xs.get? i = none ∨ xs.get? i = some .undef) →
      Creatable (freshFor (k₂ :: p)) (k₂ :: p) → Creatable (.arr xs) (k :: k₂ :: p)

/-- The fresh containers the library creates are themselves writable at the
remaining path. -/
theorem freshFor_creatable : ∀ (p : ObjPath), p ≠ [] → Creatable (freshFor p) p
  | [], h => absurd rfl h
  | [k], _ => by
      cases hpi : parseIndex k with
      | some i => simpa [freshFor, hpi] using Creatable.arrLast hpi
      | none => simpa [freshFor, hpi] using Creatable.objLast
  | k :: k₂ :: p, _ => by
      have hrec := freshFor_creatable (k₂ :: p) (by simp)
      cases hpi : parseIndex k with
      | some i =>
          have : freshFor (k :: k₂ :: p) = Value.arr [] := by simp [freshFor, hpi]
          rw [this]
          exact Creatable.arrConsA hpi (Or.inl rfl) hrec
      | none =>
          have : freshFor (k :: k₂ :: p) = Value.obj [] := by simp [freshFor, hpi]
          rw [this]
          exact Creatable.objConsA (Or.inl (by simp [lookupField])) hrec

theorem getPath_setPath_creatable {w : Value} :
    ∀ {v : Value} {p : ObjPath}, Creatable v p → getPath (setPath v p w) p = some w := by
  intro v p h
  induction h with
  | @objLast fs k =>
      simp only [setPath, getPath, lookupField_setField_self]
  | @arrLast xs k i hpi =>
      simp only [setPath, hpi, getPath, listSetPad_get]
  | @objConsP fs k k₂ p child hl hcu hrec ih =>
      rw [show setPath (Value.obj fs) (k :: k₂ :: p) w
            = Value.obj (setField fs k (setPath child (k₂ :: p) w)) from by
            simp only [setPath, hl, if_neg hcu]]
      simp only [getPath, lookupField_setField_self]
      exact ih
  | @objConsA fs k k₂ p hl hrec ih =>
      have hset : setPath (Value.obj fs) (k :: k₂ :: p) w
          = Value.obj (setField fs k (setPath (freshFor (k₂ :: p)) (k₂ :: p) w)) := by
        rcases hl with hl | hl
        · simp only [setPath, hl]
        · simp only [setPath, hl]
          exact if_pos trivial
      rw [hset]
      simp only [getPath, lookupField_setField_self]
      exact ih
  | @arrConsP xs k i k₂ p child hpi hg hcu hrec ih =>
      have hilen : i < xs.length := (List.get?_eq_some.mp hg).1
      rw [show setPath (Value.arr xs) (k :: k₂ :: p) w
            = Value.arr (xs.set i (setPath child (k₂ :: p) w)) from by
            simp only [setPath, hpi, hg, if_neg hcu]]
      simp only [getPath, hpi, List.get?_set_eq_of_lt _ hilen]
      exact ih
  | @arrConsA xs k i k₂ p hpi hg hrec ih =>
      have hset : setPath (Value.arr xs) (k :: k₂ :: p) w
          = Value.arr (listSetPad xs i (setPath (freshFor (k₂ :: p)) (k₂ :: p) w)) := by
        rcases hg with hg | hg
        · simp only [setPath, hpi, hg]
        · simp only [setPath, hpi, hg]
          exact if_pos trivial
      rw [hset]
      simp only [getPath, hpi, listSetPad_get]
      exact ih

theorem getPath_some_creatable : ∀ (p : ObjPath) {v w : Value}, p ≠ [] →
    getPath v p = some w → Creatable v p
  | [], _, _ => fun h _ => absurd rfl h
  | [k], v, w => by
      intro _ h
      cases v with
      | obj fs => exact Creatable.objLast
      | arr xs =>
          cases hpi : parseIndex k with
          | none => simp [getPath, hpi] at h
          | some i => exact Creatable.arrLast hpi
      | null => simp [getPath] at h
      | undef => simp [getPath] at h
      | bool b => simp [getPath] at h
      | num n => simp [getPath] at h
      | str s => simp [getPath] at h
  | k :: k₂ :: p, v, w => by
      intro _ h
      cases v with
      | obj fs =>
          cases hl : lookupField fs k with
          | none => simp [getPath, hl] at h
          | some child =>
              simp only [getPath, hl] at h
              have hcu : child ≠ Value.undef := by
                rcases getPath_shape h with ⟨gs, rfl⟩ | ⟨ys, rfl⟩ <;> simp
              exact Creatable.objConsP hl hcu
                (getPath_some_creatable (k₂ :: p) (by simp) h)
      | arr xs =>
          cases hpi : parseIndex k with
          | none => simp [getPath, hpi] at h
          | some i =>
              cases hg : xs.get? i with
              | none =>
                  simp only [getPath, hpi, hg] at h
                  exact Option.noConfusion h
              | some child =>
                  simp only [getPath, hpi, hg] at h
                  have hcu : child ≠ Value.undef := by
                    rcases getPath_shape h with ⟨gs, rfl⟩ | ⟨ys, rfl⟩ <;> simp
                  exact Creatable.arrConsP hpi hg hcu
                    (getPath_some_creatable (k₂ :: p) (by simp) h)
      | null => simp [getPath] at h
      | undef => simp [getPath] at h
      | bool b => simp [getPath] at h
      | num n => simp [getPath] at h
      | str s => simp [getPath] at h

/-! ### Canonical form is preserved by the path operations -/

theorem headKeyOk_of_forall {j : String} {fs : List (String × Value)}
    (h : ∀ x ∈ fs, keyLt j x.1 = true) : headKeyOk j fs = true := by
  cases fs with
  | nil => rfl
  | cons f fs =>
      obtain ⟨k', v'⟩ := f
      simpa [headKeyOk] using h (k', v') (List.mem_cons_self _ _)

theorem eraseField_subset {fs : List (String × Value)} {k : String} {x : String × Value}
    (h : x ∈ eraseField fs k) : x ∈ fs := by
  induction fs with
  | nil => simp [eraseField] at h
  | cons f fs ih =>
      obtain ⟨k', v'⟩ := f
      by_cases hk : k' = k
      · simp only [eraseField, hk, if_pos rfl] at h
        exact List.mem_cons_of_mem _ h
      · simp only [eraseField, hk, if_false] at h
        rcases List.mem_cons.mp h with h | h
        · exact h ▸ List.mem_cons_self _ _
        · exact List.mem_cons_of_mem _ (ih h)

theorem canonFields_eraseField {fs : List (String × Value)} {k : String}
    (hc : canonFields fs = true) : canonFields (eraseField fs k) = true := by
  induction fs with
  | nil => simpa [eraseField] using hc
  | cons f fs ih =>
      obtain ⟨k₁, v₁⟩ := f
      obtain ⟨hh, hv, ht⟩ := canonFields_cons_iff.mp hc
      by_cases hk : k₁ = k
      · simpa [eraseField, hk] using ht
      · simp only [eraseField, hk, if_false]
        refine canonFields_cons_iff.mpr ⟨?_, hv, ih ht⟩
        exact headKeyOk_of_forall fun x hx =>
          canonFields_head_lt hc (by
            have := eraseField_subset hx
            simpa using this)

theorem replaceField_headKey {j k : String} {fs : List (String × Value)} {w : Value}
    (h : headKeyOk j fs = true) : headKeyOk j (replaceField fs k w) = true := by
  cases fs with
  | nil => rfl
  | cons f fs =>
      obtain ⟨k', v'⟩ := f
      by_cases hk : k' = k
      · subst hk
        simp only [replaceField, if_pos rfl]
        simpa [headKeyOk] using h
      · simpa [replaceField, hk, headKeyOk] using h

theorem canonFields_replaceField {fs : List (String × Value)} {k : String} {w : Value}
    (hc : canonFields fs = true) (hw : w.canon = true) :
    canonFields (replaceField fs k w) = true := by
  induction fs with
  | nil => simpa [replaceField] using hc
  | cons f fs ih =>
      obtain ⟨k₁, v₁⟩ := f
      obtain ⟨hh, hv, ht⟩ := canonFields_cons_iff.mp hc
      by_cases hk : k₁ = k
      · subst hk
        simp only [replaceField, if_pos rfl]
        exact canonFields_cons_iff.mpr ⟨hh, hw, ht⟩
      · simp only [replaceField, hk, if_false]
        exact canonFields_cons_iff.mpr ⟨replaceField_headKey hh, hv, ih ht⟩

theorem insertField_headKey {j k : String} {fs : List (String × Value)} {w : Value}
    (h : headKeyOk j fs = true) (hjk : keyLt j k = true) :
    headKeyOk j (insertField fs k w) = true := by
  cases fs with
  | nil => simpa [insertField, headKeyOk] using hjk
  | cons f fs =>
      obtain ⟨k', v'⟩ := f
      by_cases hlt : keyLt k k' = true
      · simpa [insertField, hlt, headKeyOk] using hjk
      · simpa [insertField, hlt, headKeyOk] using h

theorem canonFields_insertField {fs : List (String × Value)} {k : String} {w : Value}
    (hc : canonFields fs = true) (hl : lookupField fs k = none) (hw : w.canon = true) :
    canonFields (insertField fs k w) = true := by
  induction fs with
  | nil => simp [insertField, canonFields, headKeyOk, hw]
  | cons f fs ih =>
      obtain ⟨k₁, v₁⟩ := f
      obtain ⟨hh, hv, ht⟩ := canonFields_cons_iff.mp hc
      by_cases hk : k₁ = k
      · simp [lookupField, hk] at hl
      · simp only [lookupField, hk, if_false] at hl
        by_cases hlt : keyLt k k₁ = true
        · simp only [insertField, hlt, if_pos rfl]
          exact canonFields_cons_iff.mpr ⟨by simpa [headKeyOk] using hlt, hw,
            canonFields_cons_iff.mpr ⟨hh, hv, ht⟩⟩
        · simp only [insertField, hlt, Bool.false_eq_true, if_false]
          have hk₁k : keyLt k₁ k = true :=
            keyLt_of_ne_of_not_lt k k₁ (Ne.symm hk) (by simpa using hlt)
          exact canonFields_cons_iff.mpr ⟨insertField_headKey hh hk₁k, hv, ih ht hl⟩

theorem canonFields_setField {fs : List (String × Value)} {k : String} {w : Value}
    (hc : canonFields fs = true) (hw : w.canon = true) :
    canonFields (setField fs k w) = true := by
  cases h : lookupField fs k with
  | some v => rw [setField_of_some h]; exact canonFields_replaceField hc hw
  | none => rw [setField_of_none h]; exact canonFields_insertField hc h hw

theorem canonElems_set : ∀ {xs : List Value} {i : Nat} {w : Value},
    canonElems xs = true → w.canon = true → canonElems (xs.set i w) = true := by
  intro xs
  induction xs with
  | nil => intro i w h _; simpa using h
  | cons x xs ih =>
      intro i w h hw
      obtain ⟨hx, hxs⟩ : x.canon = true ∧ canonElems xs = true := by
        simpa [canonElems, Bool.and_eq_true] using h
      cases i with
      | zero => simpa [List.set, canonElems, Bool.and_eq_true] using ⟨hw, hxs⟩
      | succ i =>
          simpa [List.set, canonElems, Bool.and_eq_true] using ⟨hx, ih hxs hw⟩

theorem canonElems_of_forall {xs : List Value} (h : ∀ x ∈ xs, x.canon = true) :
    canonElems xs = true := canonElems_mem.mpr h

theorem getPath_canon : ∀ (p : ObjPath) {v w : Value},
    v.canon = true → getPath v p = some w → w.canon = true
  | [], v, w => by
      intro hv h
      simp only [getPath, Option.some.injEq] at h
      exact h ▸ hv
  | k :: p, v, w => by
      intro hv h
      cases v with
      | obj fs =>
          cases hl : lookupField fs k with
          | none => simp [getPath, hl] at h
          | some child =>
              simp only [getPath, hl] at h
              have hcf : canonFields fs = true := by simpa [Value.canon] using hv
              exact getPath_canon p (canonFields_lookup_canon hcf hl) h
      | arr xs =>
          cases hpi : parseIndex k with
          | none => simp [getPath, hpi] at h
          | some i =>
              cases hg : xs.get? i with
              | none =>
                  simp only [getPath, hpi, hg] at h
                  exact Option.noConfusion h
              | some child =>
                  simp only [getPath, hpi, hg] at h
                  have hce : canonElems xs = true := by simpa [Value.canon] using hv
                  exact getPath_canon p (canonElems_mem.mp hce child (List.get?_mem hg)) h
      | null => simp [getPath] at h
      | undef => simp [getPath] at h
      | bool b => simp [getPath] at h
      | num n => simp [getPath] at h
      | str s => simp [getPath] at h

theorem setPath_canon_resolved : ∀ (p : ObjPath) {v ov w : Value},
    getPath v p = some ov → v.canon = true → w.canon = true →
    (setPath v p w).canon = true
  | [], v, ov, w => by
      intro _ hv _
      simpa [setPath] using hv
  | [k], v, ov, w => by
      intro h hv hw
      cases v with
      | obj fs =>
          have hcf : canonFields fs = true := by simpa [Value.canon] using hv
          simpa [setPath, Value.canon] using canonFields_setField hcf hw
      | arr xs =>
          cases hpi : parseIndex k with
          | none => simp [getPath, hpi] at h
          | some i =>
              cases hg : xs.get? i with
              | none =>
                  simp only [getPath, hpi, hg] at h
                  exact Option.noConfusion h
              | some child =>
                  have hce : canonElems xs = true := by simpa [Value.canon] using hv
                  have hilen : i < xs.length := (List.get?_eq_some.mp hg).1
                  simp only [setPath, hpi, listSetPad, if_pos hilen, Value.canon]
                  exact canonElems_set hce hw
      | null => simp [getPath] at h
      | undef => simp [getPath] at h
      | bool b => simp [getPath] at h
      | num n => simp [getPath] at h
      | str s => simp [getPath] at h
  | k :: k₂ :: p, v, ov, w => by
      intro h hv hw
      cases v with
      | obj fs =>
          cases hl : lookupField fs k with
          | none => simp [getPath, hl] at h
          | some child =>
              simp only [getPath, hl] at h
              have hcf : canonFields fs = true := by simpa [Value.canon] using hv
              have hchild : child.canon = true := canonFields_lookup_canon hcf hl
              have hcu : child ≠ Value.undef := canon_ne_undef hchild
              simp only [setPath, hl, if_neg hcu, Value.canon]
              exact canonFields_setField hcf (setPath_canon_resolved (k₂ :: p) h hchild hw)
      | arr xs =>
          cases hpi : parseIndex k with
          | none => simp [getPath, hpi] at h
          | some i =>
              cases hg : xs.get? i with
              | none =>
                  simp only [getPath, hpi, hg] at h
                  exact Option.noConfusion h
              | some child =>
                  simp only [getPath, hpi, hg] at h
                  have hce : canonElems xs = true := by simpa [Value.canon] using hv
                  have hchild : child.canon = true :=
                    canonElems_mem.mp hce child (List.get?_mem hg)
                  have hcu : child ≠ Value.undef := canon_ne_undef hchild
                  simp only [setPath, hpi, hg, if_neg hcu, Value.canon]
                  exact canonElems_set hce (setPath_canon_resolved (k₂ :: p) h hchild hw)
      | null => simp [getPath] at h
      | undef => simp [getPath] at h
      | bool b => simp [getPath] at h
      | num n => simp [getPath] at h
      | str s => simp [getPath] at h

theorem setPath_canon_addok {w : Value} : ∀ {v : Value} {p : ObjPath},
    AddOK v p → v.canon = true → w.canon = true → (setPath v p w).canon = true := by
  intro v p h
  induction h with
  | @last fs k hl =>
      intro hv hw
      have hcf : canonFields fs = true := by simpa [Value.canon] using hv
      simpa [setPath, Value.canon] using canonFields_setField hcf hw
  | @consObj fs k k₂ p child hl hcu hrec ih =>
      intro hv hw
      have hcf : canonFields fs = true := by simpa [Value.canon] using hv
      have hchild : child.canon = true := canonFields_lookup_canon hcf hl
      simp only [setPath, hl, if_neg hcu, Value.canon]
      exact canonFields_setField hcf (ih hchild hw)
  | @consArr xs k i k₂ p child hpi hg hcu hrec ih =>
      intro hv hw
      have hce : canonElems xs = true := by simpa [Value.canon] using hv
      have hchild : child.canon = true := canonElems_mem.mp hce child (List.get?_mem hg)
      simp only [setPath, hpi, hg, if_neg hcu, Value.canon]
      exact canonElems_set hce (ih hchild hw)

theorem delPath_canon : ∀ (p : ObjPath) (v : Value),
    v.canon = true → (delPath v p).canon = true
  | [], v => by
      intro hv
      simpa [delPath] using hv
  | [k], v => by
      intro hv
      cases v with
      | obj fs =>
          have hcf : canonFields fs = true := by simpa [Value.canon] using hv
          cases hl : lookupField fs k with
          | none => simpa [delPath, hl, Value.canon] using hcf
          | some child =>
              by_cases hcu : child = Value.undef
              · simpa [delPath, hl, hcu, Value.canon] using hcf
              · simp only [delPath, hl, if_neg hcu, Value.canon]
                exact canonFields_eraseField hcf
      | arr xs =>
          have hce : canonElems xs = true := by simpa [Value.canon] using hv
          cases hpi : parseIndex k with
          | none => simpa [delPath, hpi, Value.canon] using hce
          | some i =>
              cases hg : xs.get? i with
              | none =>
                  have hg' : xs[i]? = none := by rw [← List.get?_eq_getElem?]; exact hg
                  simpa [delPath, hpi, hg', Value.canon] using hce
              | some child =>
                  have hg' : xs[i]? = some child := by rw [← List.get?_eq_getElem?]; exact hg
                  by_cases hcu : child = Value.undef
                  · simpa [delPath, hpi, hg', hcu, Value.canon] using hce
                  · simp only [delPath, hpi, hg, if_neg hcu, Value.canon]
                    refine canonElems_of_forall fun x hx => ?_
                    rcases List.mem_append.mp hx with hx | hx
                    · exact canonElems_mem.mp hce x (List.mem_of_mem_take hx)
                    · exact canonElems_mem.mp hce x (List.mem_of_mem_drop hx)
      | null => simpa [delPath] using hv
      | undef => simpa [delPath] using hv
      | bool b => simpa [delPath] using hv
      | num n => simpa [delPath] using hv
      | str s => simpa [delPath] using hv
  | k :: k₂ :: p, v => by
      intro hv
      cases v with
      | obj fs =>
          have hcf : canonFields fs = true := by simpa [Value.canon] using hv
          cases hl : lookupField fs k with
          | none => simpa [delPath, hl, Value.canon] using hcf
          | some child =>
              by_cases hcu : child = Value.undef
              · simpa [delPath, hl, hcu, Value.canon] using hcf
              · have hchild : child.canon = true := canonFields_lookup_canon hcf hl
                simp only [delPath, hl, if_neg hcu, Value.canon]
                exact canonFields_setField hcf (delPath_canon (k₂ :: p) child hchild)
      | arr xs =>
          have hce : canonElems xs = true := by simpa [Value.canon] using hv
          cases hpi : parseIndex k with
          | none => simpa [delPath, hpi, Value.canon] using hce
          | some i =>
              cases hg : xs.get? i with
              | none =>
                  have hg' : xs[i]? = none := by rw [← List.get?_eq_getElem?]; exact hg
                  simpa [delPath, hpi, hg', Value.canon] using hce
              | some child =>
                  have hg' : xs[i]? = some child := by rw [← List.get?_eq_getElem?]; exact hg
                  by_cases hcu : child = Value.undef
                  · simpa [delPath, hpi, hg', hcu, Value.canon] using hce
                  · have hchild : child.canon = true :=
                      canonElems_mem.mp hce child (List.get?_mem hg)
                    simp only [delPath, hpi, hg, if_neg hcu, Value.canon]
                    exact canonElems_set hce (delPath_canon (k₂ :: p) child hchild)
      | null => simpa [delPath] using hv
      | undef => simpa [delPath] using hv
      | bool b => simpa [delPath] using hv
      | num n => simpa [delPath] using hv
      | str s => simpa [delPath] using hv

/-! ### Well-formed change lists and the inverse law -/

/-- One change is well formed against a value when it has the shape the Deep
Observer produces for an edit of that value: an `update` at a resolving
path, an `add` at an absent mapping key with existing parents, a `delete` of
a present mapping key, a `splice` that removes exactly the elements present
at its index, or a forwarded unknown type (which both codec directions
ignore); values carried into the document are canonical. -/
inductive WFChange : Value → Change → Prop where
  | update {v : Value} {p : ObjPath} {ov nv : Value} :
      getPath v p = some ov → nv.canon = true → WFChange v (.update p ov nv)
  | add {v : Value} {p : ObjPath} {nv : Value} :
      AddOK v p → nv.canon = true → WFChange v (.add p nv)
  | del {v : Value} {p : ObjPath} {ov : Value} :
      DelOK v p ov → WFChange v (.delete p ov)
  | splice {v : Value} {p : ObjPath} {idx : Nat} {l removed added : List Value}
      {rc ac : Nat} :
      getPath v p = some (.arr l) → idx ≤ l.length →
      removed = (l.drop idx).take rc → removed.length = rc → added.length = ac →
      canonElems added = true → WFChange v (.splice p idx removed rc added ac)
  | other {v : Value} {t : String} {p : ObjPath} : WFChange v (.other t p)

/-- A change list is well formed when each change is well formed against the
value produced by the changes before it. -/
inductive WFChanges : Value → List Change → Prop where
  | nil {v : Value} : WFChanges v []
  | cons {v : Value} {c : Change} {cs : List Change} :
      WFChange v c → WFChanges (applyChange v c) cs → WFChanges v (c :: cs)

theorem spliceList_cancel {l removed added : List Value} {idx rc ac : Nat}
    (hidx : idx ≤ l.length) (hrem : removed = (l.drop idx).take rc)
    (hac : added.length = ac) :
    spliceList (spliceList l idx rc added) idx ac removed = l := by
  have hlt : (l.take idx).length = idx := by simp [hidx]
  have h₁ : (spliceList l idx rc added).take idx = l.take idx := by
    show (l.take idx ++ added ++ l.drop (idx + rc)).take idx = l.take idx
    rw [List.append_assoc, List.take_append_of_le_length (le_of_eq hlt.symm),
        List.take_take, Nat.min_self]
  have h₂ : (spliceList l idx rc added).drop (idx + ac) = l.drop (idx + rc) := by
    show (l.take idx ++ added ++ l.drop (idx + rc)).drop (idx + ac) = l.drop (idx + rc)
    exact List.drop_left' (by rw [List.length_append, hlt, hac])
  show (spliceList l idx rc added).take idx ++ removed
      ++ (spliceList l idx rc added).drop (idx + ac) = l
  rw [h₁, h₂, hrem, ← List.drop_drop, List.append_assoc, List.take_append_drop,
      List.take_append_drop]

theorem canon_applyChange {v : Value} {c : Change} (hv : v.canon = true)
    (h : WFChange v c) : (applyChange v c).canon = true := by
  cases h with
  | update hget hnv => exact setPath_canon_resolved _ hget hv hnv
  | add haddok hnv => exact setPath_canon_addok haddok hv hnv
  | del hdelok => exact delPath_canon _ _ hv
  | @splice p idx l removed added rc ac hget hidx hrem hrc hac hcadd =>
      have hcl : canonElems l = true := by
        simpa [Value.canon] using getPath_canon p hv hget
      have hl' : canonElems (spliceList l idx rc added) = true := by
        refine canonElems_of_forall fun x hx => ?_
        rcases List.mem_append.mp hx with hx | hx
        · rcases List.mem_append.mp hx with hx | hx
          · exact canonElems_mem.mp hcl x (List.mem_of_mem_take hx)
          · exact canonElems_mem.mp hcadd x hx
        · exact canonElems_mem.mp hcl x (List.mem_of_mem_drop hx)
      show (spliceStep v p idx rc added).canon = true
      by_cases hp : p = []
      · subst hp
        have hveq : v = Value.arr l := by simpa [getPath] using hget
        subst hveq
        have hstep : spliceStep (Value.arr l) [] idx rc added
            = Value.arr (spliceList l idx rc added) := by
          simp [spliceStep, getPath, falsy]
        rw [hstep]
        simpa [Value.canon] using hl'
      · have hstep : spliceStep v p idx rc added
            = setPath v p (.arr (spliceList l idx rc added)) := by
          simp [spliceStep, hget, falsy, hp]
        rw [hstep]
        exact setPath_canon_resolved _ hget hv (by simpa [Value.canon] using hl')
  | other => exact hv

theorem reverse_applyChange {v : Value} {c : Change} (hv : v.canon = true)
    (h : WFChange v c) : reverseChange (applyChange v c) c = v := by
  cases h with
  | update hget hnv =>
      exact setPath_setPath_cancel _ _ _ _ hget
  | add haddok hnv =>
      exact delPath_setPath_cancel (canon_ne_undef hnv) haddok
  | del hdelok =>
      exact setPath_delPath_cancel hdelok hv
  | @splice p idx l removed added rc ac hget hidx hrem hrc hac hcadd =>
      show spliceStep (spliceStep v p idx rc added) p idx ac removed = v
      by_cases hp : p = []
      · subst hp
        have hveq : v = Value.arr l := by simpa [getPath] using hget
        subst hveq
        have hstep : spliceStep (Value.arr l) [] idx rc added
            = Value.arr (spliceList l idx rc added) := by
          simp [spliceStep, getPath, falsy]
        rw [hstep]
        have hstep' : spliceStep (Value.arr (spliceList l idx rc added)) [] idx ac removed
            = Value.arr (spliceList (spliceList l idx rc added) idx ac removed) := by
          simp [spliceStep, getPath, falsy]
        rw [hstep', spliceList_cancel hidx hrem hac]
      · have hstep : spliceStep v p idx rc added
            = setPath v p (.arr (spliceList l idx rc added)) := by
          simp [spliceStep, hget, falsy, hp]
        rw [hstep]
        have hget' : getPath (setPath v p (.arr (spliceList l idx rc added))) p
            = some (.arr (spliceList l idx rc added)) :=
          getPath_setPath_creatable (getPath_some_creatable p hp hget)
        have hstep' : spliceStep (setPath v p (.arr (spliceList l idx rc added))) p idx ac removed
            = setPath (setPath v p (.arr (spliceList l idx rc added))) p
                (.arr (spliceList (spliceList l idx rc added) idx ac removed)) := by
          simp [spliceStep, hget', falsy, hp]
        rw [hstep', spliceList_cancel hidx hrem hac]
        exact setPath_setPath_cancel p v (.arr l) _ hget
  | other => rfl

theorem applyChanges_cons (v : Value) (c : Change) (cs : List Change) :
    applyChanges v (c :: cs) = applyChanges (applyChange v c) cs := by
  simp [applyChanges]

theorem reverseChanges_cons (v : Value) (c : Change) (cs : List Change) :
    reverseChanges v (c :: cs) = reverseChange (reverseChanges v cs) c := by
  simp [reverseChanges, List.foldl_append]

/-- The inverse law of the change codec over well-formed change lists. -/
theorem reverseChanges_applyChanges : ∀ {cs : List Change} {v : Value},
    v.canon = true → WFChanges v cs → reverseChanges (applyChanges v cs) cs = v := by
  intro cs
  induction cs with
  | nil => intro v _ _; rfl
  | cons c cs ih =>
      intro v hv h
      cases h with
      | cons hc hcs =>
          rw [applyChanges_cons, reverseChanges_cons,
              ih (canon_applyChange hv hc) hcs, reverse_applyChange hv hc]

/-- Modelled from the spec: a change list is producible by the Deep Observer
for the transition `v → v₂` when it has the observer's shape against `v`
(`WFChanges`, the observer emits changes describing positions of `v`) and
replaying it onto the pre-edit value yields exactly the post-edit value (the
spec's round-trip law for the observer stream; the observer itself lives in
the external `nested-observe` library, not in this repository). -/
def Producible (v : Value) (cs : List Change) (v₂ : Value) : Prop :=
  v.canon = true ∧ WFChanges v cs ∧ applyChanges v cs = v₂

/-! ### Revision labels and wire histories -/

/-- A revision label: `hash.sha1({num, value})` idealized as the injective
pair itself; labels are opaque tokens compared only for equality. -/
structure RevLabel where
  num : Nat
  value : Value
deriving DecidableEq

/-- `revisionLabel(seqNum, value)`, the content hash labelling a revision. -/
def revisionLabel (num : Nat) (v : Value) : RevLabel := ⟨num, v⟩

/-- A revision history as it travels on the wire: a JavaScript array whose
entries are labels, with `undefined` entries representable. -/
abbrev WireHistory := List (Option RevLabel)

/-- JavaScript array indexing `h[i]`: out-of-range reads and explicit
`undefined` entries both give `undefined`. -/
def jsIndex (h : WireHistory) (i : Nat) : Option RevLabel := (h.get? i).join

/-! ### The server-side replicant (src/server.js) -/

/-- A multicast the server sends to the replicant's room. -/
inductive ServerEmit where
  | changedMsg (history : WireHistory) (changes : List Change)
  | setMsg (history : WireHistory) (value : Value)
deriving DecidableEq

/-- Authoritative per-name state: `_value`, `_revisionNum`, and
`revisionHistory` of the server `Replicant`.  The `_updating` flag is not
part of the state because every modelled operation runs to completion,
leaving the flag false. -/
structure ServerReplicant where
  value : Value
  revisionNum : Nat
  revisionHistory : WireHistory
deriving DecidableEq

/-- The constructor: no value yet, revision number `0`, empty history. -/
def ServerReplicant.init : ServerReplicant := ⟨.undef, 0, []⟩

/-- The `revision` getter: the content hash of the current number and value. -/
def ServerReplicant.revision (r : ServerReplicant) : RevLabel :=
  revisionLabel r.revisionNum r.value

/-- `pushChanges(oldValue, newValue, changes)`: store the new value through
the suppressed setter, bump `_revisionNum`, prepend the freshly computed
revision, then multicast `replicantChanged` when a change list is present
and `replicantSet` otherwise. -/
def ServerReplicant.pushChanges (r : ServerReplicant) (newValue : Value)
    (changes : Option (List Change)) : ServerReplicant × ServerEmit :=
  let revisionNum := r.revisionNum + 1
  let history := some (revisionLabel revisionNum newValue) :: r.revisionHistory
  (⟨newValue, revisionNum, history⟩,
   match changes with
   | some cs => .changedMsg history cs
   | none => .setMsg history newValue)

/-- The value setter outside an update: capture the old value and push the
new one with a null change list. -/
def ServerReplicant.assignValue (r : ServerReplicant) (newValue : Value) :
    ServerReplicant × ServerEmit :=
  r.pushChanges newValue none

/-- `onClientGet`: reply with the current history and value. -/
def ServerReplicant.onClientGet (r : ServerReplicant) : WireHistory × Value :=
  (r.revisionHistory, r.value)

/-- `onClientSet`: accept iff the client history contains the server's
current head (`indexOf !== -1`); then adopt `clientHistory.slice(1)`, reset
the revision number to its length, and push the new value.  Returns the
acknowledgement, the resulting state, and the multicast if any. -/
def ServerReplicant.onClientSet (r : ServerReplicant) (clientHistory : WireHistory)
    (newValue : Value) : Bool × ServerReplicant × Option ServerEmit :=
  if jsIndex r.revisionHistory 0 ∈ clientHistory then
    let r₁ : ServerReplicant :=
      ⟨r.value, (clientHistory.drop 1).length, clientHistory.drop 1⟩
    let res := r₁.pushChanges newValue none
    (true, res.1, some res.2)
  else
    (false, r, none)

/-- `onClientChange`: accept iff the client's parent (`clientHistory[1]`)
is the server's current head; then apply the changes and push them. -/
def ServerReplicant.onClientChange (r : ServerReplicant) (clientHistory : WireHistory)
    (changes : List Change) : Bool × ServerReplicant × Option ServerEmit :=
  if jsIndex clientHistory 1 = jsIndex r.revisionHistory 0 then
    let newValue := applyChanges r.value changes
    let res := r.pushChanges newValue (some changes)
    (true, res.1, some res.2)
  else
    (false, r, none)

/-! ### The client-side replicant (src/client.js) -/

/-- A message the client emits. -/
inductive ClientEmit where
  | changedMsg (history : WireHistory) (changes : List Change)
  | setMsg (history : WireHistory) (value : Value)
  | getRequest
deriving DecidableEq

/-- Mirror per-name state of the client `Replicant` (again the `_updating`
flag and the `ready` marker are bookkeeping outside the modelled state). -/
structure ClientReplicant where
  value : Value
  revisionNum : Nat
  revisionHistory : WireHistory
deriving DecidableEq

/-- The constructor state before any server contact. -/
def ClientReplicant.init : ClientReplicant := ⟨.undef, 0, []⟩

/-- The `revision` getter. -/
def ClientReplicant.revision (r : ClientReplicant) : RevLabel :=
  revisionLabel r.revisionNum r.value

/-- Client `pushChanges(oldValue, newValue, changes)`: bump `_revisionNum`,
prepend `this.revision` — computed from the bumped number and the *stored*
value, which this function never replaces — then emit `replicantChanged`
when a change list is present and `replicantSet` otherwise. -/
def ClientReplicant.pushChanges (r : ClientReplicant) (newValue : Value)
    (changes : Option (List Change)) : ClientReplicant × ClientEmit :=
  let revisionNum := r.revisionNum + 1
  let history := some (revisionLabel revisionNum r.value) :: r.revisionHistory
  (⟨r.value, revisionNum, history⟩,
   match changes with
   | some cs => .changedMsg history cs
   | none => .setMsg history newValue)

/-- The value setter outside an update: `pushChanges(oldValue, newValue,
null)`; the stored value is left untouched. -/
def ClientReplicant.assignValue (r : ClientReplicant) (newValue : Value) :
    ClientReplicant × ClientEmit :=
  r.pushChanges newValue none

/-- The observer callback path: the stored value has already been mutated in
place to the post-edit value when `pushChanges(oldValue, this.value, cs)`
runs. -/
def ClientReplicant.observerPush (r : ClientReplicant) (changes : List Change) :
    ClientReplicant × ClientEmit :=
  r.pushChanges r.value (some changes)

/-- Inbound `replicantSet`: overwrite value, history, and number inside the
suppressed region, with no comparison against local state. -/
def ClientReplicant.onServerSet (_r : ClientReplicant) (serverHistory : WireHistory)
    (newValue : Value) : ClientReplicant :=
  ⟨newValue, serverHistory.length, serverHistory⟩

/-- Inbound `replicantChanged`: when the local revision equals the incoming
parent (`serverHistory[1]`), apply the changes and adopt the history and its
length; otherwise leave the state alone and request a `replicantGet`
(`synchronize`). -/
def ClientReplicant.onServerChange (r : ClientReplicant) (serverHistory : WireHistory)
    (changes : List Change) : ClientReplicant × Option ClientEmit :=
  if some r.revision = jsIndex serverHistory 1 then
    (⟨applyChanges r.value changes, serverHistory.length, serverHistory⟩, none)
  else
    (r, some .getRequest)

/-- The `replicantGet` reply handler inside `synchronize`: overwrite value,
history, and number inside the suppressed region. -/
def ClientReplicant.syncReply (_r : ClientReplicant) (serverHistory : WireHistory)
    (value : Value) : ClientReplicant :=
  ⟨value, serverHistory.length, serverHistory⟩

/-! ### Replicant invariants and protocol reachability -/

/-- The sequence number counts the history entries. -/
def ServerReplicant.histInv (r : ServerReplicant) : Prop :=
  r.revisionNum = r.revisionHistory.length

/-- The history head is the hash of the current number and value. -/
def ServerReplicant.headInv (r : ServerReplicant) : Prop :=
  jsIndex r.revisionHistory 0 = some (revisionLabel r.revisionNum r.value)

/-- The sequence number counts the history entries. -/
def ClientReplicant.histInv (r : ClientReplicant) : Prop :=
  r.revisionNum = r.revisionHistory.length

/-- The history head is the hash of the current number and value. -/
def ClientReplicant.headInv (r : ClientReplicant) : Prop :=
  jsIndex r.revisionHistory 0 = some (revisionLabel r.revisionNum r.value)

/-- Server replicant states reachable through the protocol: the freshly
created replicant, local value assignments, and the two mutating message
handlers fed arbitrary inbound messages. -/
inductive SReach : ServerReplicant → Prop where
  | init : SReach ServerReplicant.init
  | assign {r : ServerReplicant} (nv : Value) :
      SReach r → SReach (r.assignValue nv).1
  | clientSet {r : ServerReplicant} (ch : WireHistory) (nv : Value) :
      SReach r → SReach (r.onClientSet ch nv).2.1
  | clientChange {r : ServerReplicant} (ch : WireHistory) (cs : List Change) :
      SReach r → SReach (r.onClientChange ch cs).2.1

theorem pushChanges_inv {r : ServerReplicant} {nv : Value} {cs : Option (List Change)}
    (h : r.histInv) :
    (r.pushChanges nv cs).1.histInv ∧ (r.pushChanges nv cs).1.headInv := by
  constructor
  · simp only [ServerReplicant.pushChanges, ServerReplicant.histInv, List.length_cons]
    exact congrArg Nat.succ h
  · simp [ServerReplicant.pushChanges, ServerReplicant.headInv, jsIndex]

theorem sreach_inv {r : ServerReplicant} (h : SReach r) :
    r.histInv ∧ (r.revisionHistory = [] ∨ r.headInv) := by
  induction h with
  | init => exact ⟨rfl, Or.inl rfl⟩
  | assign nv hr ih =>
      exact ⟨(pushChanges_inv ih.1).1, Or.inr (pushChanges_inv ih.1).2⟩
  | @clientSet r ch nv hr ih =>
      by_cases hacc : jsIndex r.revisionHistory 0 ∈ ch
      · have h₁ : (⟨r.value, (ch.drop 1).length, ch.drop 1⟩ : ServerReplicant).histInv := rfl
        simp only [ServerReplicant.onClientSet, if_pos hacc]
        exact ⟨(pushChanges_inv h₁).1, Or.inr (pushChanges_inv h₁).2⟩
      · simp only [ServerReplicant.onClientSet, if_neg hacc]
        exact ih
  | @clientChange r ch cs hr ih =>
      by_cases hacc : jsIndex ch 1 = jsIndex r.revisionHistory 0
      · simp only [ServerReplicant.onClientChange, if_pos hacc]
        exact ⟨(pushChanges_inv ih.1).1, Or.inr (pushChanges_inv ih.1).2⟩
      · simp only [ServerReplicant.onClientChange, if_neg hacc]
        exact ih

/-- A multicast some protocol-reachable server replicant can send. -/
def ServerEmits (e : ServerEmit) : Prop :=
  ∃ r : ServerReplicant, SReach r ∧
    ((∃ nv, (r.assignValue nv).2 = e) ∨
     (∃ ch nv, (r.onClientSet ch nv).2.2 = some e) ∨
     (∃ ch cs, (r.onClientChange ch cs).2.2 = some e))

theorem serverEmits_setMsg {h : WireHistory} {v : Value}
    (he : ServerEmits (.setMsg h v)) :
    jsIndex h 0 = some (revisionLabel h.length v) := by
  obtain ⟨r, hr, hcase⟩ := he
  have hinv := (sreach_inv hr).1
  rcases hcase with ⟨nv, hass⟩ | ⟨ch, nv, hset⟩ | ⟨ch, cs, hchg⟩
  · simp only [ServerReplicant.assignValue, ServerReplicant.pushChanges] at hass
    injection hass with hh hv
    subst hh; subst hv
    simp [jsIndex, List.length_cons, ServerReplicant.histInv] at hinv ⊢
    rw [← hinv]
  · by_cases hacc : jsIndex r.revisionHistory 0 ∈ ch
    · simp only [ServerReplicant.onClientSet, if_pos hacc, ServerReplicant.pushChanges,
        Option.some.injEq] at hset
      injection hset with hh hv
      subst hh; subst hv
      simp [jsIndex, List.length_cons]
    · simp [ServerReplicant.onClientSet, if_neg hacc] at hset
  · by_cases hacc : jsIndex ch 1 = jsIndex r.revisionHistory 0
    · simp only [ServerReplicant.onClientChange, if_pos hacc, ServerReplicant.pushChanges,
        Option.some.injEq] at hchg
      exact absurd hchg (by simp)
    · simp [ServerReplicant.onClientChange, if_neg hacc] at hchg

theorem serverEmits_changedMsg {h : WireHistory} {cs : List Change}
    (he : ServerEmits (.changedMsg h cs)) :
    ∃ rn : Nat, ∃ rv : Value, ∃ rh : WireHistory,
      h = some (revisionLabel (rn + 1) (applyChanges rv cs)) :: rh ∧
      rn = rh.length ∧ (rh = [] ∨ jsIndex rh 0 = some (revisionLabel rn rv)) := by
  obtain ⟨r, hr, hcase⟩ := he
  obtain ⟨hinv, hhead⟩ := sreach_inv hr
  rcases hcase with ⟨nv, hass⟩ | ⟨ch, nv, hset⟩ | ⟨ch, cs', hchg⟩
  · simp only [ServerReplicant.assignValue, ServerReplicant.pushChanges] at hass
    exact absurd hass (by simp)
  · by_cases hacc : jsIndex r.revisionHistory 0 ∈ ch
    · simp only [ServerReplicant.onClientSet, if_pos hacc, ServerReplicant.pushChanges,
        Option.some.injEq] at hset
      exact absurd hset (by simp)
    · simp [ServerReplicant.onClientSet, if_neg hacc] at hset
  · by_cases hacc : jsIndex ch 1 = jsIndex r.revisionHistory 0
    · simp only [ServerReplicant.onClientChange, if_pos hacc, ServerReplicant.pushChanges,
        Option.some.injEq] at hchg
      injection hchg with hh hcs
      subst hcs
      refine ⟨r.revisionNum, r.value, r.revisionHistory, hh.symm, hinv, ?_⟩
      rcases hhead with hnil | hhd
      · exact Or.inl hnil
      · exact Or.inr hhd
    · simp [ServerReplicant.onClientChange, if_neg hacc] at hchg

/-! ### The claims -/

/-- C1: for every canonical value `v` and well-formed change list `cs`,
`reverseChanges(applyChanges(v, cs), cs)` deep-equals `v` (on canonical
representatives deep equality is equality); in particular, for any change
list producible by the Deep Observer for a transition `v → v₂`,
`applyChanges(v, cs) = v₂` and `reverseChanges(v₂, cs) = v`. -/
theorem C1_inverse_law :
    (∀ (v : Value) (cs : List Change), v.canon = true → WFChanges v cs →
        reverseChanges (applyChanges v cs) cs = v) ∧
    (∀ (v : Value) (cs : List Change) (v₂ : Value), Producible v cs v₂ →
        applyChanges v cs = v₂ ∧ reverseChanges v₂ cs = v) := by
  constructor
  · intro v cs hv hwf
    exact reverseChanges_applyChanges hv hwf
  · intro v cs v₂ hp
    obtain ⟨hv, hwf, happ⟩ := hp
    exact ⟨happ, happ ▸ reverseChanges_applyChanges hv hwf⟩

theorem C1_witness :
    reverseChanges
        (applyChanges (Value.obj [("a", Value.num 0)])
          [Change.update ["a"] (Value.num 0) (Value.num 1)])
        [Change.update ["a"] (Value.num 0) (Value.num 1)]
      = Value.obj [("a", Value.num 0)] :=
  C1_inverse_law.1 _ _ (by decide)
    (WFChanges.cons (WFChange.update (by decide) (by decide)) WFChanges.nil)

/-- C2: the server accepts an inbound `replicantChanged(name, clientHistory,
changes)` iff `clientHistory[1]` equals the current `revisionHistory[0]`;
on acceptance it acknowledges true, applies the changes and pushes them to
the room; on mismatch it acknowledges false and leaves value, sequence
number, and history unchanged with no multicast. -/
theorem C2_changed_parent_check (r : ServerReplicant) (ch : WireHistory)
    (cs : List Change) :
    ((r.onClientChange ch cs).1 = true ↔ jsIndex ch 1 = jsIndex r.revisionHistory 0) ∧
    (jsIndex ch 1 = jsIndex r.revisionHistory 0 →
      r.onClientChange ch cs =
        (true,
         ⟨applyChanges r.value cs, r.revisionNum + 1,
          some (revisionLabel (r.revisionNum + 1) (applyChanges r.value cs))
            :: r.revisionHistory⟩,
         some (.changedMsg
           (some (revisionLabel (r.revisionNum + 1) (applyChanges r.value cs))
             :: r.revisionHistory) cs))) ∧
    (jsIndex ch 1 ≠ jsIndex r.revisionHistory 0 →
      r.onClientChange ch cs = (false, r, none)) := by
  refine ⟨?_, ?_, ?_⟩
  · by_cases hacc : jsIndex ch 1 = jsIndex r.revisionHistory 0 <;>
      simp [ServerReplicant.onClientChange, hacc]
  · intro hacc
    simp [ServerReplicant.onClientChange, hacc, ServerReplicant.pushChanges]
  · intro hacc
    simp [ServerReplicant.onClientChange, hacc]

theorem C2_witness :
    ServerReplicant.init.onClientChange [] []
      = (true,
         ⟨Value.undef, 1, [some (revisionLabel 1 Value.undef)]⟩,
         some (.changedMsg [some (revisionLabel 1 Value.undef)] [])) := by
  have h := (C2_changed_parent_check ServerReplicant.init [] []).2.1 rfl
  simpa [applyChanges] using h

/-- C3: `sequenceNumber = revisionHistory.length` holds at construction on
both sides and is preserved by every completed operation: server and client
`pushChanges`, `onClientSet`, `onClientChange`, `onServerSet`,
`onServerChange`, and the `synchronize` reply. -/
theorem C3_seq_len_invariant :
    ServerReplicant.init.histInv ∧ ClientReplicant.init.histInv ∧
    (∀ (r : ServerReplicant) (nv : Value) (cs : Option (List Change)),
      r.histInv → (r.pushChanges nv cs).1.histInv) ∧
    (∀ (r : ServerReplicant) (ch : WireHistory) (nv : Value),
      r.histInv → (r.onClientSet ch nv).2.1.histInv) ∧
    (∀ (r : ServerReplicant) (ch : WireHistory) (cs : List Change),
      r.histInv → (r.onClientChange ch cs).2.1.histInv) ∧
    (∀ (c : ClientReplicant) (nv : Value) (cs : Option (List Change)),
      c.histInv → (c.pushChanges nv cs).1.histInv) ∧
    (∀ (c : ClientReplicant) (h : WireHistory) (nv : Value),
      (c.onServerSet h nv).histInv) ∧
    (∀ (c : ClientReplicant) (h : WireHistory) (cs : List Change),
      c.histInv → (c.onServerChange h cs).1.histInv) ∧
    (∀ (c : ClientReplicant) (h : WireHistory) (v : Value),
      (c.syncReply h v).histInv) := by
  refine ⟨rfl, rfl, ?_, ?_, ?_, ?_, ?_, ?_, ?_⟩
  · intro r nv cs h
    exact (pushChanges_inv h).1
  · intro r ch nv h
    by_cases hacc : jsIndex r.revisionHistory 0 ∈ ch
    · simp only [ServerReplicant.onClientSet, if_pos hacc]
      exact (pushChanges_inv
        (show ServerReplicant.histInv ⟨r.value, (ch.drop 1).length, ch.drop 1⟩ from rfl)).1
    · simpa [ServerReplicant.onClientSet, if_neg hacc] using h
  · intro r ch cs h
    by_cases hacc : jsIndex ch 1 = jsIndex r.revisionHistory 0
    · simp only [ServerReplicant.onClientChange, if_pos hacc]
      exact (pushChanges_inv h).1
    · simpa [ServerReplicant.onClientChange, if_neg hacc] using h
  · intro c nv cs h
    simp only [ClientReplicant.pushChanges, ClientReplicant.histInv, List.length_cons]
    exact congrArg Nat.succ h
  · intro c h nv
    rfl
  · intro c h cs hinv
    by_cases hacc : some c.revision = jsIndex h 1
    · simp only [ClientReplicant.onServerChange, if_pos hacc]
      rfl
    · simpa [ClientReplicant.onServerChange, if_neg hacc] using hinv
  · intro c h v
    rfl

theorem C3_witness :
    ((ServerReplicant.init.pushChanges Value.null none).1).histInv :=
  C3_seq_len_invariant.2.2.1 ServerReplicant.init Value.null none rfl

/-- C4 as stated fails at a freshly created replicant: the initial state is
quiescent and protocol-reachable, its `revisionHistory` is empty, so
`revisionHistory[0]` is undefined while `revisionLabel(sequenceNumber,
value)` is a label — the two cannot be equal. -/
theorem C4_counterexample :
    SReach ServerReplicant.init ∧
    jsIndex ServerReplicant.init.revisionHistory 0 = none ∧
    jsIndex ServerReplicant.init.revisionHistory 0 ≠
      some (revisionLabel ServerReplicant.init.revisionNum ServerReplicant.init.value) :=
  ⟨SReach.init, rfl, by decide⟩

/-- C4 (amended): except for the fresh empty-history state, every quiescent
protocol-reachable server state satisfies `revisionHistory[0] =
revisionLabel(sequenceNumber, value)`; a client replicant satisfies it after
every completed local `pushChanges`, and after adopting a `replicantSet`
multicast, a `replicantGet` reply, or an accepted `replicantChanged`
multicast emitted by a reachable server. -/
theorem C4_head_label_invariant :
    (∀ r : ServerReplicant, SReach r → r.revisionHistory ≠ [] → r.headInv) ∧
    (∀ (c : ClientReplicant) (nv : Value) (cs : Option (List Change)),
      (c.pushChanges nv cs).1.headInv) ∧
    (∀ (c : ClientReplicant) (h : WireHistory) (v : Value),
      ServerEmits (.setMsg h v) → (c.onServerSet h v).headInv) ∧
    (∀ (c : ClientReplicant) (r : ServerReplicant), SReach r → r.revisionHistory ≠ [] →
      (c.syncReply r.revisionHistory r.value).headInv) ∧
    (∀ (c : ClientReplicant) (h : WireHistory) (cs : List Change) (c' : ClientReplicant),
      ServerEmits (.changedMsg h cs) → c.onServerChange h cs = (c', none) →
      c'.headInv) := by
  refine ⟨?_, ?_, ?_, ?_, ?_⟩
  · intro r hr hne
    rcases (sreach_inv hr).2 with hnil | hhd
    · exact absurd hnil hne
    · exact hhd
  · intro c nv cs
    simp [ClientReplicant.pushChanges, ClientReplicant.headInv, jsIndex]
  · intro c h v he
    have := serverEmits_setMsg he
    simpa [ClientReplicant.onServerSet, ClientReplicant.headInv] using this
  · intro c r hr hne
    have hhd : r.headInv := by
      rcases (sreach_inv hr).2 with hnil | hhd
      · exact absurd hnil hne
      · exact hhd
    have hlen : r.revisionNum = r.revisionHistory.length := (sreach_inv hr).1
    show jsIndex r.revisionHistory 0
      = some (revisionLabel r.revisionHistory.length r.value)
    rw [← hlen]
    exact hhd
  · intro c h cs c' he heq
    obtain ⟨rn, rv, rh, hh, hlen, hhead⟩ := serverEmits_changedMsg he
    by_cases hacc : some c.revision = jsIndex h 1
    · simp only [ClientReplicant.onServerChange, if_pos hacc, Prod.mk.injEq] at heq
      have hc' : c' = ⟨applyChanges c.value cs, h.length, h⟩ := heq.1.symm
      subst hc'
      rw [hh] at hacc
      have hj : jsIndex (some (revisionLabel (rn + 1) (applyChanges rv cs)) :: rh) 1
          = jsIndex rh 0 := rfl
      rw [hj] at hacc
      rcases hhead with hnil | hhd
      · rw [hnil] at hacc
        simp [jsIndex] at hacc
      · rw [hhd] at hacc
        have hinj : c.revisionNum = rn ∧ c.value = rv := by
          simpa [ClientReplicant.revision, revisionLabel, RevLabel.mk.injEq] using hacc
        obtain ⟨hnum, hval⟩ := hinj
        show jsIndex h 0 = some (revisionLabel h.length (applyChanges c.value cs))
        rw [hh, hval]
        have : (some (revisionLabel (rn + 1) (applyChanges rv cs)) :: rh).length
            = rn + 1 := by
          simp [← hlen]
        rw [this]
        rfl
    · simp only [ClientReplicant.onServerChange, if_neg hacc, Prod.mk.injEq] at heq
      exact absurd heq.2 (by simp)

theorem C4_witness :
    ((ServerReplicant.init.assignValue Value.null).1).headInv :=
  C4_head_label_invariant.1 _ (SReach.assign Value.null SReach.init) (by decide)

/-- C5: the server accepts an inbound `replicantSet(name, clientHistory,
newValue)` iff `clientHistory` contains the server's current head label
(`revisionHistory[0]`) at some position; on acceptance it acknowledges true,
adopts `clientHistory.slice(1)` with its length as the sequence number, and
pushes the new value (leaving the pushed label on top); otherwise it
acknowledges false and changes nothing. -/
theorem C5_set_handling (r : ServerReplicant) (ch : WireHistory) (nv : Value) :
    ((r.onClientSet ch nv).1 = true ↔ jsIndex r.revisionHistory 0 ∈ ch) ∧
    (jsIndex r.revisionHistory 0 ∈ ch →
      r.onClientSet ch nv =
        (true,
         ⟨nv, (ch.drop 1).length + 1,
          some (revisionLabel ((ch.drop 1).length + 1) nv) :: ch.drop 1⟩,
         some (.setMsg
           (some (revisionLabel ((ch.drop 1).length + 1) nv) :: ch.drop 1) nv))) ∧
    (jsIndex r.revisionHistory 0 ∉ ch →
      r.onClientSet ch nv = (false, r, none)) := by
  refine ⟨?_, ?_, ?_⟩
  · by_cases hacc : jsIndex r.revisionHistory 0 ∈ ch <;>
      simp [ServerReplicant.onClientSet, hacc]
  · intro hacc
    simp [ServerReplicant.onClientSet, hacc, ServerReplicant.pushChanges]
  · intro hacc
    simp [ServerReplicant.onClientSet, hacc]

theorem C5_witness :
    ServerReplicant.init.onClientSet [none] Value.null
      = (true,
         ⟨Value.null, 1, [some (revisionLabel 1 Value.null)]⟩,
         some (.setMsg [some (revisionLabel 1 Value.null)] Value.null)) := by
  have h := (C5_set_handling ServerReplicant.init [none] Value.null).2.1 (by decide)
  simpa using h

/-- C6: on an inbound `replicantChanged(serverHistory, changes)` the client
applies the changes and adopts the history and its length exactly when its
local revision equals `serverHistory[1]`; otherwise it leaves its state
alone and emits `replicantGet`, whose reply overwrites the local state. -/
theorem C6_client_change (c : ClientReplicant) (h : WireHistory) (cs : List Change) :
    ((c.onServerChange h cs).2 = none ↔ some c.revision = jsIndex h 1) ∧
    (some c.revision = jsIndex h 1 →
      c.onServerChange h cs = (⟨applyChanges c.value cs, h.length, h⟩, none)) ∧
    (some c.revision ≠ jsIndex h 1 →
      c.onServerChange h cs = (c, some .getRequest)) ∧
    (∀ (sh : WireHistory) (v : Value), c.syncReply sh v = ⟨v, sh.length, sh⟩) := by
  refine ⟨?_, ?_, ?_, fun _ _ => rfl⟩
  · by_cases hacc : some c.revision = jsIndex h 1 <;>
      simp [ClientReplicant.onServerChange, hacc]
  · intro hacc
    simp [ClientReplicant.onServerChange, hacc]
  · intro hacc
    simp [ClientReplicant.onServerChange, hacc]

theorem C6_witness :
    ClientReplicant.init.onServerChange [some (revisionLabel 3 Value.null)] []
      = (ClientReplicant.init, some ClientEmit.getRequest) :=
  (C6_client_change ClientReplicant.init [some (revisionLabel 3 Value.null)] []).2.2.1
    (by decide)

/-- The witness state for the C7 counterexample: a synchronized client
holding the value `0` at sequence number `1`. -/
def c7state : ClientReplicant := ⟨Value.num 0, 1, [some (revisionLabel 1 (Value.num 0))]⟩

/-- C7 as stated fails on the direct-assignment path: assigning `5` to a
client holding `0` prepends the label `revisionLabel(2, 0)` — computed
against the untouched stored value — while emitting `replicantSet` with new
value `5`, so the prepended label differs from `revisionLabel(2, 5)`, the
label of the already-updated value the claim prescribes. -/
theorem C7_counterexample :
    (c7state.assignValue (Value.num 5)).1.revisionHistory
      = some (revisionLabel 2 (Value.num 0)) :: c7state.revisionHistory ∧
    (c7state.assignValue (Value.num 5)).2
      = .setMsg (some (revisionLabel 2 (Value.num 0)) :: c7state.revisionHistory)
          (Value.num 5) ∧
    revisionLabel 2 (Value.num 0) ≠ revisionLabel 2 (Value.num 5) :=
  ⟨rfl, rfl, by decide⟩

/-- C7 (amended): on every client `pushChanges` — direct assignment or
observer callback — the client increments the sequence number and prepends
`revisionLabel(new sequenceNumber, stored value)` before emitting, and the
emitted message carries the updated history; on the observer path the
stored value is the already-mutated new value, so the label is computed
against it, but direct assignment leaves the stored value untouched, so
there the label is computed against the previous value. -/
theorem C7_push_label (c : ClientReplicant) (nv : Value) :
    (∀ cs : Option (List Change),
      (c.pushChanges nv cs).1.revisionNum = c.revisionNum + 1 ∧
      (c.pushChanges nv cs).1.revisionHistory
        = some (revisionLabel (c.revisionNum + 1) c.value) :: c.revisionHistory ∧
      (c.pushChanges nv cs).1.value = c.value) ∧
    (∀ cs : List Change,
      (c.pushChanges nv (some cs)).2
        = .changedMsg (some (revisionLabel (c.revisionNum + 1) c.value)
            :: c.revisionHistory) cs) ∧
    ((c.pushChanges nv none).2
        = .setMsg (some (revisionLabel (c.revisionNum + 1) c.value)
            :: c.revisionHistory) nv) ∧
    (∀ cs : List Change,
      (c.observerPush cs).1.revisionHistory
        = some (revisionLabel (c.revisionNum + 1) c.value) :: c.revisionHistory) :=
  ⟨fun _ => ⟨rfl, rfl, rfl⟩, fun _ => rfl, rfl, fun _ => rfl⟩

/-- C9: a server replicant with empty `revisionHistory` rejects every
`replicantSet` whose client history has no undefined entry (the `indexOf`
probe searches for `revisionHistory[0]`, which is undefined) and leaves the
state untouched with no multicast, while it accepts any `replicantChanged`
whose client history has length 1, since both compared parent slots read as
undefined. -/
theorem C9_fresh_server (r : ServerReplicant) (hr : r.revisionHistory = []) :
    (∀ (ch : WireHistory) (nv : Value), (∀ x ∈ ch, x ≠ none) →
      r.onClientSet ch nv = (false, r, none)) ∧
    (∀ (ch : WireHistory) (cs : List Change), ch.length = 1 →
      (r.onClientChange ch cs).1 = true) := by
  constructor
  · intro ch nv hch
    have hhead : jsIndex r.revisionHistory 0 = none := by
      rw [hr]; rfl
    have hnm : jsIndex r.revisionHistory 0 ∉ ch := by
      rw [hhead]
      intro hm
      exact hch none hm rfl
    simp [ServerReplicant.onClientSet, hnm]
  · intro ch cs hlen
    match ch, hlen with
    | [x], _ =>
        have h1 : jsIndex [x] 1 = none := rfl
        have h0 : jsIndex r.revisionHistory 0 = none := by
          rw [hr]; rfl
        simp [ServerReplicant.onClientChange, h1, h0]

theorem C9_witness :
    ServerReplicant.init.onClientSet [some (revisionLabel 1 Value.null)] Value.null
      = (false, ServerReplicant.init, none) ∧
    (ServerReplicant.init.onClientChange [some (revisionLabel 1 Value.null)] []).1
      = true :=
  ⟨(C9_fresh_server ServerReplicant.init rfl).1 _ _ (by decide),
   (C9_fresh_server ServerReplicant.init rfl).2 _ [] (by decide)⟩

/-- C10: assigning to a client replicant's `value` property outside the
updating state leaves the stored value unchanged — the getter still returns
the previous value — as does every client `pushChanges`; the stored value is
replaced only inside the updating regions of `onServerSet`, an accepted
`onServerChange`, and the `synchronize` reply. -/
theorem C10_value_frame (c : ClientReplicant) (nv : Value) :
    ((c.assignValue nv).1.value = c.value) ∧
    (∀ cs : Option (List Change), (c.pushChanges nv cs).1.value = c.value) ∧
    (∀ h : WireHistory, (c.onServerSet h nv).value = nv) ∧
    (∀ h : WireHistory, (c.syncReply h nv).value = nv) ∧
    (∀ (h : WireHistory) (cs : List Change),
      (some c.revision = jsIndex h 1 →
        (c.onServerChange h cs).1.value = applyChanges c.value cs) ∧
      (some c.revision ≠ jsIndex h 1 →
        (c.onServerChange h cs).1.value = c.value)) := by
  refine ⟨rfl, fun _ => rfl, fun _ => rfl, fun _ => rfl, ?_⟩
  intro h cs
  constructor
  · intro hacc
    simp [ClientReplicant.onServerChange, hacc]
  · intro hacc
    simp [ClientReplicant.onServerChange, hacc]

theorem C10_witness :
    ((ClientReplicant.init.assignValue (Value.num 3)).1.value = Value.undef) ∧
    ((ClientReplicant.init.onServerChange [] []).1.value = Value.undef) :=
  ⟨(C10_value_frame ClientReplicant.init (Value.num 3)).1,
   ((C10_value_frame ClientReplicant.init (Value.num 3)).2.2.2.2 [] []).2 (by decide)⟩
